import Mathlib

/-!
Verification of the spoc framework core against its specification.

The definitions below are shallow embeddings of the Python sources:
  * `src/spoc/core/utils.py`   — `DependencyGraph` (Kahn topological sort,
    DFS cycle extraction, reversal);
  * `src/spoc/framework.py`    — `Framework._collect_apps`;
  * `src/spoc/components.py`   — `Components.add_type / register / is_component`;
  * `src/spoc/core/importer.py`— `Importer.load_from_uri`, `Importer.shutdown`;
  * `src/spoc/core/singleton.py` — `SingletonMeta.__call__`;
  * the worker lifecycle runner exercised by `tests/test_workers.py`
    (modelled from the spec, see `workerRun` below).

Python `set` iteration order is unspecified, so a graph state stores the
node set as a duplicate-free list representing one possible iteration
order, and set insertion is modelled relationally (`SetInsert`).
-/

set_option linter.unusedSectionVars false

namespace Spoc

variable {T : Type} [DecidableEq T]

/-- State of `DependencyGraph` (core/utils.py). `nodes` is the Python set
of nodes in its (unspecified) iteration order; `edges` is the sequence of
`add_edge (from, to)` calls.  The adjacency dict `self.graph` maps a node
`x` to the list of targets of the `add_edge (x, ·)` calls in call order,
recovered by `adjacency`. -/
structure DependencyGraph (T : Type) where
  nodes : List T
  edges : List (T × T)
deriving DecidableEq

/-- `self.graph[node]`: out-neighbours of `x` in append order. -/
def adjacency (g : DependencyGraph T) (x : T) : List T :=
  g.edges.filterMap (fun e => if e.1 = x then some e.2 else none)

/-- The in-degree dict built at the top of `topological_sort`:
`for node in self.nodes: for neighbor in self.graph[node]: in_degree[neighbor] += 1`. -/
def inDegree (g : DependencyGraph T) (n : T) : Nat :=
  ((g.nodes.map (adjacency g)).flatten).count n

/-- Queue seeding: `for node in self.nodes: if in_degree[node] == 0: queue.append(node)`. -/
def seeds (g : DependencyGraph T) : List T :=
  g.nodes.filter (fun n => inDegree g n == 0)

/-- Inner loop of Kahn's algorithm over the out-neighbours of the node
just popped: decrement each neighbour's in-degree and enqueue it when the
count reaches zero. -/
def stepNbrs (indeg : T → Int) (queue : List T) : List T → (T → Int) × List T
  | [] => (indeg, queue)
  | nb :: nbs =>
    let indeg' : T → Int := fun x => if x = nb then indeg nb - 1 else indeg x
    let queue' := if indeg' nb = 0 then queue ++ [nb] else queue
    stepNbrs indeg' queue' nbs

/-- The `while queue:` loop of `topological_sort`.  `fuel` bounds the
number of iterations; `topological_sort` passes `nodes.length + 1`, which
is proved sufficient (each iteration appends one as-yet-unseen node). -/
def kahnLoop (g : DependencyGraph T) : Nat → (T → Int) → List T → List T → List T
  | 0, _, _, result => result
  | fuel + 1, indeg, queue, result =>
    match queue with
    | [] => result
    | current :: rest =>
      let st := stepNbrs indeg rest (adjacency g current)
      kahnLoop g fuel st.1 st.2 (result ++ [current])

/-- The list produced by the Kahn phase of `topological_sort`. -/
def kahnResult (g : DependencyGraph T) : List T :=
  kahnLoop g (g.nodes.length + 1) (fun n => (inDegree g n : Int)) (seeds g) []

/-- The `for neighbor in self.graph[node]:` loop inside `find_cycle`:
run `f` (the recursive call at one less fuel, with the extended path
captured) over the neighbours in order, threading the visited set and
returning on the first cycle found. -/
def runNbrs (f : List T → T → List T × Option (List T)) :
    List T → List T → List T × Option (List T)
  | visited, [] => (visited, none)
  | visited, nb :: nbs =>
    match f visited nb with
    | (v', some c) => (v', some c)
    | (v', none) => runNbrs f v' nbs

/-- `find_cycle(node)` from `topological_sort`'s cycle-reporting phase.
`visited` and `path` are the set/list of the Python closure; the result
pairs the updated visited set with the cycle found, if any.  `fuel`
bounds recursion depth; the caller passes `nodes.length + 1`, proved
sufficient since each push adds an unvisited node to `visited`. -/
def findCycle (g : DependencyGraph T) : Nat → List T → List T → T → List T × Option (List T)
  | 0, visited, _, _ => (visited, none)
  | fuel + 1, visited, path, node =>
    if node ∈ path then
      (visited, some (path.drop (path.indexOf node) ++ [node]))
    else if node ∈ visited then
      (visited, none)
    else
      runNbrs (fun v' nb => findCycle g fuel v' (path ++ [node]) nb)
        (node :: visited) (adjacency g node)

/-- The `for node in self.nodes: if node not in visited: find_cycle(node)`
sweep of the cycle-reporting phase. -/
def cycleSweep (g : DependencyGraph T) (fuel : Nat) : List T → List T → Option (List T)
  | _, [] => none
  | visited, n :: ns =>
    if n ∈ visited then cycleSweep g fuel visited ns
    else
      match findCycle g fuel visited [] n with
      | (_, some c) => some c
      | (v', none) => cycleSweep g fuel v' ns

/-- `DependencyGraph.topological_sort` (core/utils.py).  Success returns the
Kahn order; on failure the payload of the raised `CircularDependencyError`
is returned in `Except.error`.  The final fallback models
`self.nodes - set(result)` (its set-iteration order is unspecified; the
branch is proved unreachable). -/
def topological_sort (g : DependencyGraph T) : Except (List T) (List T) :=
  let result := kahnResult g
  if result.length = g.nodes.length then .ok result
  else
    match cycleSweep g (g.nodes.length + 1) [] g.nodes with
    | some c => .error c
    | none => .error (g.nodes.filter (fun n => decide (n ∉ result)))

/-- `DependencyGraph.reversed`: same node set, every edge flipped.  The
new edge sequence follows `for from_node in self.nodes: for to_node in
self.graph[from_node]: reversed_graph.add_edge(to_node, from_node)`;
this model keeps the node enumeration of `g` (the relational
`ReversedOf` below covers every enumeration the new set may have). -/
def reversedGraph (g : DependencyGraph T) : DependencyGraph T :=
  { nodes := g.nodes
    edges := ((g.nodes.map (fun n => (adjacency g n).map (fun t => (t, n))))).flatten }

/-- Well-formedness holding for every graph built through the public
API: the node enumeration is duplicate-free, and both endpoints of every
edge are nodes (`add_edge` inserts them). -/
structure WF (g : DependencyGraph T) : Prop where
  nodup : g.nodes.Nodup
  srcMem : ∀ e ∈ g.edges, e.1 ∈ g.nodes
  tgtMem : ∀ e ∈ g.edges, e.2 ∈ g.nodes

/-- `a → b` is an edge of the graph (duplicates coalesce at this level). -/
def Edge (g : DependencyGraph T) (a b : T) : Prop := (a, b) ∈ g.edges

instance (g : DependencyGraph T) (a b : T) : Decidable (Edge g a b) := by
  unfold Edge; infer_instance

/-- No directed cycle (through one or more edges). -/
def Acyclic (g : DependencyGraph T) : Prop :=
  ∀ a, ¬ Relation.TransGen (Edge g) a a

/-- `c` is a cycle report: a nonempty edge path that starts and ends at
the same node. -/
def IsCycleList (g : DependencyGraph T) (c : List T) : Prop :=
  ∃ a l, c = a :: l ∧ l ≠ [] ∧ c.getLast? = some a ∧ List.Chain (Edge g) a l

/-- The two mutating operations of `DependencyGraph`. -/
inductive Op (T : Type) where
  | addNode (n : T)
  | addEdge (a b : T)

/-- `s.add(n)` on a Python set, relating the old iteration order to the
possible new ones: inserting a present element changes nothing; inserting
a new element may place it anywhere (and may reorder, e.g. on rehash). -/
inductive SetInsert (n : T) : List T → List T → Prop where
  | mem {l : List T} : n ∈ l → SetInsert n l l
  | new {l l' : List T} : n ∉ l → l'.Perm (n :: l) → SetInsert n l l'

/-- One `add_node` / `add_edge` call. -/
inductive Step : DependencyGraph T → Op T → DependencyGraph T → Prop where
  | addNode {g ns'} {n : T} : SetInsert n g.nodes ns' →
      Step g (.addNode n) ⟨ns', g.edges⟩
  | addEdge {g ns₁ ns₂} {a b : T} : SetInsert a g.nodes ns₁ → SetInsert b ns₁ ns₂ →
      Step g (.addEdge a b) ⟨ns₂, g.edges ++ [(a, b)]⟩

/-- A sequence of calls from a given state. -/
inductive BuildFrom : DependencyGraph T → List (Op T) → DependencyGraph T → Prop where
  | nil {g} : BuildFrom g [] g
  | cons {g g₁ g₂ op ops} : Step g op g₁ → BuildFrom g₁ ops g₂ →
      BuildFrom g (op :: ops) g₂

/-- The empty graph `DependencyGraph()`. -/
def emptyGraph : DependencyGraph T := ⟨[], []⟩

/-- `g` is reachable from the empty graph by the given calls. -/
def Built (ops : List (Op T)) (g : DependencyGraph T) : Prop :=
  BuildFrom emptyGraph ops g

/-- `g'` is a possible result of `g.reversed()`: same node set (in some
iteration order) and the edge multiset flipped. -/
def ReversedOf (g g' : DependencyGraph T) : Prop :=
  g'.nodes.Perm g.nodes ∧ g'.edges.Perm (g.edges.map Prod.swap)

/-- Number of edges into `n`, duplicates counted. -/
def edgesInto (g : DependencyGraph T) (n : T) : Nat :=
  g.edges.countP (fun e => decide (e.2 = n))

/-- Number of edges into `n` whose source has not been emitted yet. -/
def remInto (g : DependencyGraph T) (result : List T) (n : T) : Nat :=
  g.edges.countP (fun e => decide (e.2 = n ∧ e.1 ∉ result))

/-- Number of edges from `c` to `x`, duplicates counted. -/
def edgesFromTo (g : DependencyGraph T) (c x : T) : Nat :=
  g.edges.countP (fun e => decide (e.1 = c ∧ e.2 = x))

section ListHelpers

variable {α : Type} [DecidableEq α]

theorem nodup_length_le {l m : List α} (h : l.Nodup) (hsub : l ⊆ m) :
    l.length ≤ m.length :=
  (h.subperm hsub).length_le

theorem perm_of_nodup_mem_iff {l m : List α} (hl : l.Nodup) (hm : m.Nodup)
    (h : ∀ x, x ∈ l ↔ x ∈ m) : l.Perm m :=
  (hl.subperm (fun _ hx => (h _).1 hx)).antisymm (hm.subperm (fun _ hx => (h _).2 hx))

theorem sum_map_add (l : List α) (f g : α → ℕ) :
    (l.map (fun x => f x + g x)).sum = (l.map f).sum + (l.map g).sum := by
  induction l with
  | nil => simp
  | cons a l ih => simp [ih]; omega

theorem sum_map_ite (l : List α) (a : α) (f : α → ℕ) (hl : l.Nodup) :
    (l.map (fun x => if a = x then f x else 0)).sum = if a ∈ l then f a else 0 := by
  induction l with
  | nil => simp
  | cons b l ih =>
    rcases List.nodup_cons.mp hl with ⟨hb, hl'⟩
    by_cases hab : a = b
    · subst hab
      have : (l.map (fun x => if a = x then f x else 0)).sum = 0 := by
        rw [ih hl']
        simp [hb]
      simp [this]
    · simp only [List.map_cons, List.sum_cons, if_neg hab, ih hl', List.mem_cons]
      simp [Ne.symm hab, hab]

theorem sum_map_indicator (l : List α) (a : α) (hl : l.Nodup) :
    (l.map (fun x => if a = x then (1 : ℕ) else 0)).sum = if a ∈ l then 1 else 0 :=
  sum_map_ite l a (fun _ => 1) hl

theorem indexOf_append_self {l : List α} {a : α} (h : a ∉ l) :
    List.indexOf a (l ++ [a]) = l.length := by
  induction l with
  | nil => simp [List.indexOf_cons]
  | cons b l ih =>
    have hba : ¬ b = a := fun hba => h (hba ▸ List.mem_cons_self b l)
    have h' : a ∉ l := fun h' => h (List.mem_cons_of_mem _ h')
    simp [List.indexOf_cons, hba, ih h']

theorem drop_indexOf_cons {l : List α} {a : α} (h : a ∈ l) :
    ∃ t, l.drop (List.indexOf a l) = a :: t := by
  induction l with
  | nil => simp at h
  | cons b l ih =>
    by_cases hba : b = a
    · subst hba
      exact ⟨l, by simp [List.indexOf_cons]⟩
    · have h' : a ∈ l := by
        rcases List.mem_cons.mp h with h | h
        · exact absurd h.symm hba
        · exact h
      rcases ih h' with ⟨t, ht⟩
      exact ⟨t, by simpa [List.indexOf_cons, hba] using ht⟩

theorem countP_split (l : List α) (p q : α → Bool) :
    l.countP p = l.countP (fun x => p x && q x) + l.countP (fun x => p x && !(q x)) := by
  induction l with
  | nil => simp
  | cons a l ih =>
    simp only [List.countP_cons, ih]
    by_cases hp : p a <;> by_cases hq : q a <;> simp [hp, hq] <;> omega

theorem countP_congr_mem {l : List α} {p q : α → Bool}
    (h : ∀ x ∈ l, p x = q x) : l.countP p = l.countP q := by
  induction l with
  | nil => simp
  | cons a l ih =>
    simp only [List.countP_cons, h a (List.mem_cons_self a l),
      ih (fun x hx => h x (List.mem_cons_of_mem _ hx))]

end ListHelpers

/-- Membership in the adjacency list is exactly the edge relation. -/
theorem mem_adjacency {g : DependencyGraph T} {c x : T} :
    x ∈ adjacency g c ↔ Edge g c x := by
  unfold adjacency Edge
  simp only [List.mem_filterMap]
  constructor
  · rintro ⟨e, he, hx⟩
    by_cases h1 : e.1 = c
    · simp only [if_pos h1, Option.some.injEq] at hx
      have : e = (c, x) := by
        cases e; simp_all
      exact this ▸ he
    · simp [if_neg h1] at hx
  · intro he
    exact ⟨(c, x), he, by simp⟩

/-- Multiplicity of `x` in the adjacency list of `c` counts the `(c, x)` edges. -/
theorem count_adjacency (g : DependencyGraph T) (c x : T) :
    (adjacency g c).count x = edgesFromTo g c x := by
  unfold adjacency edgesFromTo
  generalize g.edges = E
  induction E with
  | nil => simp
  | cons e E ih =>
    by_cases h1 : e.1 = c
    · by_cases h2 : e.2 = x
      · simp [List.filterMap_cons, h1, h2, List.count_cons, List.countP_cons, ih]
      · simp [List.filterMap_cons, h1, h2, List.count_cons, List.countP_cons, ih]
    · simp [List.filterMap_cons, h1, List.countP_cons, ih]

/-- Summed over all nodes, per-source edge counts into `n` give the total
in-degree of `n` (the sources of all edges being nodes, each edge is
counted exactly once). -/
theorem sum_edgesFromTo (g : DependencyGraph T) (n : T)
    (hnd : g.nodes.Nodup) (hsrc : ∀ e ∈ g.edges, e.1 ∈ g.nodes) :
    (g.nodes.map (fun x => edgesFromTo g x n)).sum = edgesInto g n := by
  unfold edgesFromTo edgesInto
  have key : ∀ (E : List (T × T)), (∀ e ∈ E, e.1 ∈ g.nodes) →
      (g.nodes.map (fun x => E.countP (fun e => decide (e.1 = x ∧ e.2 = n)))).sum =
        E.countP (fun e => decide (e.2 = n)) := by
    intro E
    induction E with
    | nil => intro _; simp
    | cons e E ih =>
      intro hE
      have hmem : e.1 ∈ g.nodes := hE e (List.mem_cons_self e E)
      have hE' : ∀ e' ∈ E, e'.1 ∈ g.nodes := fun e' he' => hE e' (List.mem_cons_of_mem _ he')
      simp only [List.countP_cons]
      have step : (g.nodes.map (fun x =>
          E.countP (fun e' => decide (e'.1 = x ∧ e'.2 = n)) +
            if decide (e.1 = x ∧ e.2 = n) = true then 1 else 0)).sum =
          (g.nodes.map (fun x => E.countP (fun e' => decide (e'.1 = x ∧ e'.2 = n)))).sum +
          (g.nodes.map (fun x => if decide (e.1 = x ∧ e.2 = n) = true then 1 else 0)).sum :=
        sum_map_add _ _ _
      rw [step, ih hE']
      congr 1
      by_cases h2 : e.2 = n
      · have : ∀ x, (if decide (e.1 = x ∧ e.2 = n) = true then (1 : ℕ) else 0) =
            if e.1 = x then 1 else 0 := by
          intro x; simp [h2]
        simp only [this]
        rw [sum_map_indicator _ _ hnd]
        simp [hmem, h2]
      · have : ∀ x, (if decide (e.1 = x ∧ e.2 = n) = true then (1 : ℕ) else 0) = 0 := by
          intro x; simp [h2]
        simp only [this, h2]
        simp
  exact key g.edges hsrc

/-- Bridge: the in-degree dict computed by iterating the node set equals
the raw count of edges into `n`. -/
theorem inDegree_eq_edgesInto (g : DependencyGraph T) (hWF : WF g) (n : T) :
    inDegree g n = edgesInto g n := by
  unfold inDegree
  rw [List.count_flatten, List.map_map]
  have : (List.count n ∘ adjacency g) = fun x => edgesFromTo g x n := by
    funext x
    exact count_adjacency g x n
  rw [this, sum_edgesFromTo g n hWF.nodup hWF.srcMem]

theorem stepNbrs_nil (indeg : T → Int) (queue : List T) :
    stepNbrs indeg queue [] = (indeg, queue) := rfl

theorem stepNbrs_cons (indeg : T → Int) (queue : List T) (nb : T) (nbs : List T) :
    stepNbrs indeg queue (nb :: nbs) =
      stepNbrs (fun x => if x = nb then indeg nb - 1 else indeg x)
        (if (fun x => if x = nb then indeg nb - 1 else indeg x) nb = 0 then
          queue ++ [nb] else queue) nbs := rfl

/-- After processing a neighbour list, each in-degree has dropped by the
neighbour's multiplicity in the list. -/
theorem stepNbrs_fst (nbs : List T) :
    ∀ (indeg : T → Int) (queue : List T),
      (stepNbrs indeg queue nbs).1 = fun x => indeg x - (nbs.count x : Int) := by
  induction nbs with
  | nil => intro indeg queue; funext x; simp [stepNbrs_nil]
  | cons nb nbs ih =>
    intro indeg queue
    rw [stepNbrs_cons, ih]
    funext x
    by_cases hx : x = nb
    · subst hx
      simp [List.count_cons]
      omega
    · simp [List.count_cons, hx, Ne.symm hx]

/-- After processing a neighbour list, the queue has gained (at the back,
each at most once) exactly the nodes whose in-degree passed through zero:
those with `1 ≤ indeg x ≤ count x nbs`. -/
theorem stepNbrs_snd (nbs : List T) :
    ∀ (indeg : T → Int) (queue : List T),
      ∃ post, (stepNbrs indeg queue nbs).2 = queue ++ post ∧ post.Nodup ∧
        ∀ x, (x ∈ post ↔ x ∈ nbs ∧ 1 ≤ indeg x ∧ indeg x ≤ (nbs.count x : Int)) := by
  induction nbs with
  | nil =>
    intro indeg queue
    exact ⟨[], by simp [stepNbrs]⟩
  | cons nb nbs ih =>
    intro indeg queue
    rw [stepNbrs_cons]
    set indeg' : T → Int := fun x => if x = nb then indeg nb - 1 else indeg x with hindeg'
    have hnbv : indeg' nb = indeg nb - 1 := by rw [hindeg']; simp
    set queue' := if indeg' nb = 0 then queue ++ [nb] else queue with hqueue'
    rcases ih indeg' queue' with ⟨post', heq, hnd', hmem'⟩
    refine ⟨(if indeg' nb = 0 then [nb] else []) ++ post', ?_, ?_, ?_⟩
    · rw [heq, hqueue']
      by_cases h0 : indeg' nb = 0 <;> simp [h0]
    · have hnb : indeg' nb = 0 → nb ∉ post' := by
        intro h0 hmem
        obtain ⟨-, h1, -⟩ := (hmem' nb).1 hmem
        rw [hnbv] at h0 h1
        omega
      by_cases h0 : indeg' nb = 0
      · simp only [if_pos h0, List.singleton_append, List.nodup_cons]
        exact ⟨hnb h0, hnd'⟩
      · simpa [h0] using hnd'
    · intro x
      simp only [List.mem_append, hmem' x, List.mem_cons]
      by_cases hx : x = nb
      · subst hx
        have hcnt : List.count x (x :: nbs) = List.count x nbs + 1 := by
          simp [List.count_cons]
        have hmemc : x ∈ nbs ↔ 1 ≤ List.count x nbs :=
          ⟨fun h => List.count_pos_iff.mpr h, fun h => List.count_pos_iff.mp h⟩
        constructor
        · rintro (h | h)
          · by_cases h0 : indeg' x = 0
            · rw [hnbv] at h0
              refine ⟨Or.inl rfl, by omega, ?_⟩
              rw [hcnt]; push_cast; omega
            · simp [h0] at h
          · rcases h with ⟨hm, h1, h2⟩
            rw [hnbv] at h1 h2
            refine ⟨Or.inl rfl, by omega, ?_⟩
            rw [hcnt]; push_cast at h2 ⊢; omega
        · rintro ⟨-, h1, h2⟩
          rw [hcnt] at h2; push_cast at h2
          by_cases hone : indeg x = 1
          · left; simp [hnbv, hone]
          · right
            have hc1 : 1 ≤ List.count x nbs := by omega
            exact ⟨hmemc.mpr hc1, by rw [hnbv]; omega, by rw [hnbv]; omega⟩
      · have hix : indeg' x = indeg x := by simp [hindeg', hx]
        have hcnt : (nb :: nbs).count x = nbs.count x := by
          simp [List.count_cons, Ne.symm hx]
        by_cases h0 : indeg' nb = 0 <;>
          simp [h0, hx, hix, hcnt]

theorem kahnLoop_zero (g : DependencyGraph T) (indeg : T → Int) (queue result : List T) :
    kahnLoop g 0 indeg queue result = result := rfl

theorem kahnLoop_nil (g : DependencyGraph T) (fuel : Nat) (indeg : T → Int)
    (result : List T) : kahnLoop g (fuel + 1) indeg [] result = result := rfl

theorem kahnLoop_cons (g : DependencyGraph T) (fuel : Nat) (indeg : T → Int)
    (c : T) (rest result : List T) :
    kahnLoop g (fuel + 1) indeg (c :: rest) result =
      kahnLoop g fuel (stepNbrs indeg rest (adjacency g c)).1
        (stepNbrs indeg rest (adjacency g c)).2 (result ++ [c]) := rfl

/-- Invariant of the Kahn phase, holding at the head of each `while queue:`
iteration: the emitted list and the queue are disjoint duplicate-free node
lists, the in-degree dict counts edges from not-yet-emitted sources, the
queue holds exactly the unemitted nodes of in-degree zero, and the emitted
list respects every edge into it. -/
structure KInv (g : DependencyGraph T) (indeg : T → Int) (queue result : List T) : Prop where
  resNodup : result.Nodup
  qNodup : queue.Nodup
  disj : ∀ x ∈ queue, x ∉ result
  resSub : ∀ x ∈ result, x ∈ g.nodes
  qSub : ∀ x ∈ queue, x ∈ g.nodes
  indegEq : ∀ n, indeg n = (remInto g result n : Int)
  queueIff : ∀ n ∈ g.nodes, (n ∈ queue ↔ n ∉ result ∧ indeg n = 0)
  topo : ∀ a b, Edge g a b → b ∈ result →
    a ∈ result ∧ List.indexOf a result < List.indexOf b result

theorem remInto_eq_zero_of_mem {g : DependencyGraph T} {indeg : T → Int}
    {queue result : List T} (inv : KInv g indeg queue result) {n : T}
    (hn : n ∈ result) : remInto g result n = 0 := by
  apply List.countP_eq_zero.mpr
  intro e he
  simp only [decide_eq_true_eq, not_and]
  intro h2 h1
  exact h1 ((inv.topo e.1 n (by rwa [Edge, ← h2, Prod.mk.eta]) hn).1)

theorem edgesFromTo_le_remInto (g : DependencyGraph T) {result : List T}
    {c : T} (hc : c ∉ result) (n : T) :
    edgesFromTo g c n ≤ remInto g result n := by
  apply List.countP_mono_left
  intro e _ h
  simp only [decide_eq_true_eq] at h ⊢
  exact ⟨h.2, h.1 ▸ hc⟩

theorem remInto_append_single (g : DependencyGraph T) {result : List T}
    {c : T} (hc : c ∉ result) (n : T) :
    remInto g result n = edgesFromTo g c n + remInto g (result ++ [c]) n := by
  unfold remInto edgesFromTo
  rw [countP_split g.edges (fun e => decide (e.2 = n ∧ e.1 ∉ result))
    (fun e => decide (e.1 = c))]
  congr 1
  · apply countP_congr_mem
    intro e _
    by_cases h1 : e.1 = c <;> by_cases h2 : e.2 = n <;> simp [h1, h2, hc]
  · apply countP_congr_mem
    intro e _
    by_cases h1 : e.1 = c <;> by_cases h2 : e.2 = n <;>
      simp [h1, h2, List.mem_append]

/-- Main lemma on the `while queue:` loop: with enough fuel it extends
`result ++ queue` to a duplicate-free list of nodes that respects every
edge into it, and every node left out retains an incoming edge from
another left-out node. -/
theorem kahnLoop_spec (g : DependencyGraph T) (hWF : WF g) :
    ∀ (fuel : Nat) (indeg : T → Int) (queue result : List T),
      KInv g indeg queue result →
      g.nodes.length + 1 ≤ fuel + result.length →
      ∃ r, kahnLoop g fuel indeg queue result = r ∧
        (result ++ queue) <+: r ∧ r.Nodup ∧ (∀ x ∈ r, x ∈ g.nodes) ∧
        (∀ a b, Edge g a b → b ∈ r →
          a ∈ r ∧ List.indexOf a r < List.indexOf b r) ∧
        (∀ n ∈ g.nodes, n ∉ r → ∃ u, u ∈ g.nodes ∧ u ∉ r ∧ Edge g u n) := by
  intro fuel
  induction fuel with
  | zero =>
    intro indeg queue result inv hfuel
    have hlen : result.length ≤ g.nodes.length :=
      nodup_length_le inv.resNodup (fun _ hx => inv.resSub _ hx)
    omega
  | succ fuel ih =>
    intro indeg queue result inv hfuel
    match queue with
    | [] =>
      refine ⟨result, kahnLoop_nil g fuel indeg result, by simp, inv.resNodup,
        inv.resSub, inv.topo, ?_⟩
      intro n hn hnr
      have h0 : ¬ indeg n = 0 := by
        intro h0
        exact absurd (((inv.queueIff n hn).mpr ⟨hnr, h0⟩)) (List.not_mem_nil n)
      have hrem : 0 < remInto g result n := by
        have := inv.indegEq n
        omega
      rcases List.countP_pos.mp hrem with ⟨e, he, hp⟩
      simp only [decide_eq_true_eq] at hp
      refine ⟨e.1, hWF.srcMem e he, hp.2, ?_⟩
      rw [Edge, ← hp.1, Prod.mk.eta]
      exact he
    | c :: rest =>
      have hcnode : c ∈ g.nodes := inv.qSub c (List.mem_cons_self c rest)
      obtain ⟨hcres, hc0⟩ := (inv.queueIff c hcnode).mp (List.mem_cons_self c rest)
      have hcrest : c ∉ rest := (List.nodup_cons.mp inv.qNodup).1
      have hrestnd : rest.Nodup := (List.nodup_cons.mp inv.qNodup).2
      have hfst := stepNbrs_fst (adjacency g c) indeg rest
      obtain ⟨post, hsnd, hpostnd, hpost⟩ := stepNbrs_snd (adjacency g c) indeg rest
      -- arithmetic facts about the updated in-degrees
      have hcnt : ∀ n, List.count n (adjacency g c) = edgesFromTo g c n :=
        count_adjacency g c
      have hremc : remInto g result c = 0 := by
        have := inv.indegEq c
        omega
      have hsplit : ∀ n, remInto g result n =
          edgesFromTo g c n + remInto g (result ++ [c]) n :=
        remInto_append_single g hcres
      have hindeg' : ∀ n, (stepNbrs indeg rest (adjacency g c)).1 n =
          (remInto g (result ++ [c]) n : Int) := by
        intro n
        rw [hfst]
        show indeg n - (List.count n (adjacency g c) : Int) = _
        have h1 := inv.indegEq n
        have h2 := hsplit n
        rw [hcnt n]
        omega
      have hmemres : ∀ n ∈ result, indeg n = 0 := by
        intro n hn
        rw [inv.indegEq n, remInto_eq_zero_of_mem inv hn]
        rfl
      -- the fresh queue entries
      have hpostres : ∀ x ∈ post, x ∉ result ∧ x ≠ c := by
        intro x hx
        obtain ⟨-, h1, -⟩ := (hpost x).1 hx
        constructor
        · intro hmem
          rw [hmemres x hmem] at h1
          omega
        · intro hxc
          rw [hxc, hc0] at h1
          omega
      have hrestpost : ∀ x ∈ rest, x ∉ post := by
        intro x hxrest hxpost
        have hxnode : x ∈ g.nodes := inv.qSub x (List.mem_cons_of_mem c hxrest)
        obtain ⟨-, h0⟩ := (inv.queueIff x hxnode).mp (List.mem_cons_of_mem c hxrest)
        obtain ⟨-, h1, -⟩ := (hpost x).1 hxpost
        omega
      have hpostnodes : ∀ x ∈ post, x ∈ g.nodes := by
        intro x hx
        obtain ⟨-, h1, -⟩ := (hpost x).1 hx
        have : 0 < remInto g result x := by
          have := inv.indegEq x
          omega
        rcases List.countP_pos.mp this with ⟨e, he, hp⟩
        simp only [decide_eq_true_eq] at hp
        exact hp.1 ▸ hWF.tgtMem e he
      -- the new invariant
      have inv' : KInv g (stepNbrs indeg rest (adjacency g c)).1
          (stepNbrs indeg rest (adjacency g c)).2 (result ++ [c]) := by
        refine ⟨?_, ?_, ?_, ?_, ?_, hindeg', ?_, ?_⟩
        · exact List.nodup_append.mpr ⟨inv.resNodup, List.nodup_singleton c,
            by intro x hx hxc; simp at hxc; exact hcres (hxc ▸ hx)⟩
        · rw [hsnd]
          exact List.nodup_append.mpr ⟨hrestnd, hpostnd, hrestpost⟩
        · rw [hsnd]
          intro x hx hxres
          rcases List.mem_append.mp hx with hx | hx
          · rcases List.mem_append.mp hxres with h | h
            · exact inv.disj x (List.mem_cons_of_mem c hx) h
            · simp at h
              exact hcrest (h ▸ hx)
          · rcases List.mem_append.mp hxres with h | h
            · exact (hpostres x hx).1 h
            · simp at h
              exact (hpostres x hx).2 h
        · intro x hx
          rcases List.mem_append.mp hx with h | h
          · exact inv.resSub x h
          · simp at h
            exact h ▸ hcnode
        · rw [hsnd]
          intro x hx
          rcases List.mem_append.mp hx with h | h
          · exact inv.qSub x (List.mem_cons_of_mem c h)
          · exact hpostnodes x h
        · rw [hsnd]
          intro n hn
          constructor
          · intro hmem
            rcases List.mem_append.mp hmem with h | h
            · obtain ⟨hnr, h0⟩ := (inv.queueIff n hn).mp (List.mem_cons_of_mem c h)
              have hne : n ≠ c := fun hne => hcrest (hne ▸ h)
              refine ⟨by simp [hnr, hne], ?_⟩
              rw [hindeg' n]
              have hle := edgesFromTo_le_remInto g hcres n
              have h1 := inv.indegEq n
              have h2 := hsplit n
              omega
            · obtain ⟨hmemadj, h1, h2⟩ := (hpost n).1 h
              obtain ⟨hnr, hne⟩ := hpostres n h
              refine ⟨by simp [hnr, hne], ?_⟩
              rw [hindeg' n]
              have h3 := inv.indegEq n
              have h4 := hsplit n
              rw [hcnt n] at h2
              omega
          · rintro ⟨hnmem, h0⟩
            simp only [List.mem_append, List.mem_singleton, not_or] at hnmem
            obtain ⟨hnr, hne⟩ := hnmem
            rw [hindeg' n] at h0
            have h1 := inv.indegEq n
            have h2 := hsplit n
            by_cases hcz : edgesFromTo g c n = 0
            · have : indeg n = 0 := by omega
              have := (inv.queueIff n hn).mpr ⟨hnr, this⟩
              rcases List.mem_cons.mp this with h | h
              · exact absurd h hne
              · exact List.mem_append.mpr (Or.inl h)
            · refine List.mem_append.mpr (Or.inr ((hpost n).2 ⟨?_, ?_, ?_⟩))
              · have : 0 < List.count n (adjacency g c) := by
                  rw [hcnt n]
                  omega
                exact List.count_pos_iff.mp this
              · omega
              · rw [hcnt n]
                omega
        · intro a b hab hb
          rcases List.mem_append.mp hb with hb | hb
          · obtain ⟨ha, hlt⟩ := inv.topo a b hab hb
            refine ⟨List.mem_append.mpr (Or.inl ha), ?_⟩
            rw [List.indexOf_append_of_mem ha, List.indexOf_append_of_mem hb]
            exact hlt
          · simp only [List.mem_singleton] at hb
            subst hb
            have ha : a ∈ result := by
              by_contra ha
              have : 0 < remInto g result b := by
                apply List.countP_pos.mpr
                exact ⟨(a, b), hab, by simp [ha]⟩
              omega
            refine ⟨List.mem_append.mpr (Or.inl ha), ?_⟩
            rw [List.indexOf_append_of_mem ha, indexOf_append_self hcres]
            exact List.indexOf_lt_length.mpr ha
      rcases ih (stepNbrs indeg rest (adjacency g c)).1
          (stepNbrs indeg rest (adjacency g c)).2 (result ++ [c]) inv'
          (by simp only [List.length_append, List.length_singleton]; omega) with
        ⟨r, hr, hpre, hnd, hsub, htopo, hcomp⟩
      refine ⟨r, ?_, ?_, hnd, hsub, htopo, hcomp⟩
      · rw [kahnLoop_cons]
        exact hr
      · refine List.IsPrefix.trans ?_ hpre
        rw [hsnd]
        have : result ++ c :: rest <+: (result ++ [c]) ++ rest :=
          (by simp : result ++ c :: rest = (result ++ [c]) ++ rest) ▸
            List.prefix_refl _
        calc result ++ c :: rest <+: (result ++ [c]) ++ rest := this
          _ <+: ((result ++ [c]) ++ rest) ++ post := List.prefix_append _ _
          _ = (result ++ [c]) ++ (rest ++ post) := by simp

theorem runNbrs_nil (f : List T → T → List T × Option (List T)) (V : List T) :
    runNbrs f V [] = (V, none) := rfl

theorem runNbrs_cons (f : List T → T → List T × Option (List T)) (V : List T)
    (nb : T) (nbs : List T) :
    runNbrs f V (nb :: nbs) =
      match f V nb with
      | (v', some c) => (v', some c)
      | (v', none) => runNbrs f v' nbs := rfl

theorem findCycle_zero (g : DependencyGraph T) (V P : List T) (node : T) :
    findCycle g 0 V P node = (V, none) := rfl

theorem findCycle_succ (g : DependencyGraph T) (fuel : Nat) (V P : List T) (node : T) :
    findCycle g (fuel + 1) V P node =
      if node ∈ P then (V, some (P.drop (P.indexOf node) ++ [node]))
      else if node ∈ V then (V, none)
      else runNbrs (fun v' nb => findCycle g fuel v' (P ++ [node]) nb)
        (node :: V) (adjacency g node) := rfl

/-- DFS invariant: every visited node off the current path is fully
explored (all out-neighbours visited) and lies on no cycle. -/
def DfsInv (g : DependencyGraph T) (V P : List T) : Prop :=
  ∀ v ∈ V, v ∉ P →
    (∀ w, Edge g v w → w ∈ V) ∧ ¬ Relation.TransGen (Edge g) v v

/-- Core soundness-of-failure lemma for the DFS: a call that finds no
cycle visits its argument, preserves the invariant for the caller's
path, and keeps every newly visited node off that path. -/
theorem findCycle_none_spec (g : DependencyGraph T) (hWF : WF g) :
    ∀ (fuel : Nat) (V P : List T) (node : T) (V' : List T),
      g.nodes.length + 1 ≤ fuel + V.length →
      V.Nodup → (∀ x ∈ V, x ∈ g.nodes) → node ∈ g.nodes → DfsInv g V P →
      findCycle g fuel V P node = (V', none) →
      V ⊆ V' ∧ node ∈ V' ∧ V'.Nodup ∧ (∀ x ∈ V', x ∈ g.nodes) ∧
        (∀ m ∈ V', m ∉ V → m ∉ P) ∧ node ∉ P ∧ DfsInv g V' P := by
  intro fuel
  induction fuel with
  | zero =>
    intro V P node V' hfuel hnd hsub hnode hinv heq
    have := nodup_length_le hnd (fun _ hx => hsub _ hx)
    omega
  | succ fuel ih =>
    intro V P node V' hfuel hnd hsub hnode hinv heq
    rw [findCycle_succ] at heq
    by_cases hP : node ∈ P
    · rw [if_pos hP] at heq
      injection heq with h1 h2
      simp at h2
    · rw [if_neg hP] at heq
      by_cases hV : node ∈ V
      · rw [if_pos hV] at heq
        injection heq with h1 h2
        subst h1
        exact ⟨fun _ h => h, hV, hnd, hsub, fun m hm hm' => absurd hm hm', hP, hinv⟩
      · rw [if_neg hV] at heq
        have hVnd : (node :: V).Nodup := List.nodup_cons.mpr ⟨hV, hnd⟩
        have hVsub : ∀ x ∈ node :: V, x ∈ g.nodes := by
          intro x hx
          rcases List.mem_cons.mp hx with h | h
          · exact h ▸ hnode
          · exact hsub x h
        have hVfuel : g.nodes.length + 1 ≤ fuel + (node :: V).length := by
          simp only [List.length_cons]
          omega
        have hVinv : DfsInv g (node :: V) (P ++ [node]) := by
          intro v hv hvP'
          have hvne : v ≠ node := by
            intro h
            exact hvP' (h ▸ List.mem_append.mpr (Or.inr (List.mem_singleton.mpr rfl)))
          have hvV : v ∈ V := by
            rcases List.mem_cons.mp hv with h | h
            · exact absurd h hvne
            · exact h
          have hvP : v ∉ P := fun h => hvP' (List.mem_append.mpr (Or.inl h))
          obtain ⟨hcl, hcy⟩ := hinv v hvV hvP
          exact ⟨fun w hw => List.mem_cons_of_mem _ (hcl w hw), hcy⟩
        have hnbsub : ∀ x ∈ adjacency g node, x ∈ g.nodes := by
          intro x hx
          exact hWF.tgtMem (node, x) (mem_adjacency.mp hx)
        have run : ∀ (ns W W' : List T), W.Nodup → (∀ x ∈ W, x ∈ g.nodes) →
            DfsInv g W (P ++ [node]) → g.nodes.length + 1 ≤ fuel + W.length →
            (∀ x ∈ ns, x ∈ g.nodes) →
            runNbrs (fun v' nb => findCycle g fuel v' (P ++ [node]) nb) W ns = (W', none) →
            W ⊆ W' ∧ W'.Nodup ∧ (∀ x ∈ W', x ∈ g.nodes) ∧ DfsInv g W' (P ++ [node]) ∧
              (∀ nb ∈ ns, nb ∈ W' ∧ nb ∉ P ++ [node]) ∧
              (∀ m ∈ W', m ∉ W → m ∉ P ++ [node]) := by
          intro ns
          induction ns with
          | nil =>
            intro W W' hWnd hWsub hWinv hWfuel hnssub heq
            rw [runNbrs_nil] at heq
            injection heq with h1 h2
            subst h1
            exact ⟨fun _ h => h, hWnd, hWsub, hWinv, by simp,
              fun m hm hm' => absurd hm hm'⟩
          | cons nb ns ihn =>
            intro W W' hWnd hWsub hWinv hWfuel hnssub heq
            rw [runNbrs_cons] at heq
            rcases hfc : findCycle g fuel W (P ++ [node]) nb with ⟨v₁, oc⟩
            rw [hfc] at heq
            cases oc with
            | some c => simp at heq
            | none =>
              simp only [] at heq
              obtain ⟨hsub1, hnb1, hnd1, hsubn1, hnew1, hnbP', hinv1⟩ :=
                ih W (P ++ [node]) nb v₁ hWfuel hWnd hWsub
                  (hnssub nb (List.mem_cons_self nb ns)) hWinv hfc
              have hlen1 : W.length ≤ v₁.length := nodup_length_le hWnd hsub1
              obtain ⟨hsub2, hnd2, hsubn2, hinv2, hmem2, hnew2⟩ :=
                ihn v₁ W' hnd1 hsubn1 hinv1 (by omega)
                  (fun x hx => hnssub x (List.mem_cons_of_mem _ hx)) heq
              refine ⟨fun x hx => hsub2 (hsub1 hx), hnd2, hsubn2, hinv2, ?_, ?_⟩
              · intro nb' hnb'
                rcases List.mem_cons.mp hnb' with h | h
                · exact ⟨h ▸ hsub2 hnb1, h ▸ hnbP'⟩
                · exact hmem2 nb' h
              · intro m hm hmW
                by_cases hmv : m ∈ v₁
                · exact hnew1 m hmv hmW
                · exact hnew2 m hm hmv
        obtain ⟨hsub'', hnd'', hsubn'', hinv'', hmem'', hnew''⟩ :=
          run (adjacency g node) (node :: V) V' hVnd hVsub hVinv hVfuel hnbsub heq
        refine ⟨fun x hx => hsub'' (List.mem_cons_of_mem _ hx),
          hsub'' (List.mem_cons_self node V), hnd'', hsubn'', ?_, hP, ?_⟩
        · intro m hm hmV
          by_cases hmn : m = node
          · exact hmn ▸ hP
          · have hmnv : m ∉ node :: V := by
              intro h
              rcases List.mem_cons.mp h with h | h
              · exact hmn h
              · exact hmV h
            intro hmP
            exact hnew'' m hm hmnv (List.mem_append.mpr (Or.inl hmP))
        · intro v hv hvP
          by_cases hvP' : v ∈ P ++ [node]
          · have hvnode : v = node := by
              rcases List.mem_append.mp hvP' with h | h
              · exact absurd h hvP
              · simpa using h
            subst hvnode
            constructor
            · intro w hw
              exact (hmem'' w (mem_adjacency.mpr hw)).1
            · intro hcyc
              obtain ⟨c1, hc1, hrt⟩ := Relation.TransGen.head'_iff.mp hcyc
              obtain ⟨hc1V', hc1P'⟩ := hmem'' c1 (mem_adjacency.mpr hc1)
              exact (hinv'' c1 hc1V' hc1P').2 (Relation.TransGen.tail' hrt hc1)
          · exact hinv'' v hv hvP'

/-- A cons-extension lemma for edge chains ending in a known last node. -/
theorem chain'_snoc {R : T → T → Prop} {l : List T} {z y : T}
    (h : List.Chain' R (l ++ [z])) (hzy : R z y) :
    List.Chain' R ((l ++ [z]) ++ [y]) := by
  apply List.chain'_append.mpr
  refine ⟨h, List.chain'_singleton y, ?_⟩
  intro x hx y' hy'
  rw [List.getLast?_concat] at hx
  simp only [List.head?_cons, Option.mem_def, Option.some.injEq] at hx hy'
  subst hx
  subst hy'
  exact hzy

/-- Any cycle the DFS reports really is a cycle of the graph. -/
theorem findCycle_some_spec (g : DependencyGraph T) :
    ∀ (fuel : Nat) (V P : List T) (node : T) (V' c : List T),
      List.Chain' (Edge g) (P ++ [node]) →
      findCycle g fuel V P node = (V', some c) → IsCycleList g c := by
  intro fuel
  induction fuel with
  | zero =>
    intro V P node V' c hchain heq
    rw [findCycle_zero] at heq
    simp at heq
  | succ fuel ih =>
    intro V P node V' c hchain heq
    rw [findCycle_succ] at heq
    by_cases hP : node ∈ P
    · rw [if_pos hP] at heq
      injection heq with h1 h2
      injection h2 with h2
      obtain ⟨t, ht⟩ := drop_indexOf_cons hP
      have hidx : List.indexOf node P ≤ P.length :=
        le_of_lt (List.indexOf_lt_length.mpr hP)
      have hc : c = (node :: t) ++ [node] := by
        rw [← h2, ht]
      refine ⟨node, t ++ [node], by simpa using hc, by simp, ?_, ?_⟩
      · rw [hc]
        simpa using List.getLast?_concat (node :: t)
      · have hsuffix : List.Chain' (Edge g) (P.drop (List.indexOf node P) ++ [node]) := by
          have hdrop : List.drop (List.indexOf node P) (P ++ [node]) =
              P.drop (List.indexOf node P) ++ [node] :=
            List.drop_append_of_le_length hidx
          exact hchain.suffix (hdrop ▸ List.drop_suffix _ _)
        rw [ht] at hsuffix
        exact hsuffix
    · rw [if_neg hP] at heq
      by_cases hV : node ∈ V
      · rw [if_pos hV] at heq
        simp at heq
      · rw [if_neg hV] at heq
        have run : ∀ (ns W : List T), (∀ nb ∈ ns, Edge g node nb) →
            runNbrs (fun v' nb => findCycle g fuel v' (P ++ [node]) nb) W ns =
              (V', some c) → IsCycleList g c := by
          intro ns
          induction ns with
          | nil =>
            intro W hedge heq
            rw [runNbrs_nil] at heq
            simp at heq
          | cons nb ns ihn =>
            intro W hedge heq
            rw [runNbrs_cons] at heq
            rcases hfc : findCycle g fuel W (P ++ [node]) nb with ⟨v₁, oc⟩
            rw [hfc] at heq
            cases oc with
            | some c' =>
              simp only [Prod.mk.injEq, Option.some.injEq] at heq
              have hchain' : List.Chain' (Edge g) ((P ++ [node]) ++ [nb]) :=
                chain'_snoc hchain (hedge nb (List.mem_cons_self nb ns))
              exact heq.2 ▸ ih W (P ++ [node]) nb v₁ c' hchain' hfc
            | none =>
              simp only [] at heq
              exact ihn v₁ (fun nb' h => hedge nb' (List.mem_cons_of_mem _ h)) heq
        exact run (adjacency g node) (node :: V)
          (fun nb h => mem_adjacency.mp h) heq

/-- Any cycle reported by the sweep really is a cycle of the graph. -/
theorem cycleSweep_some_spec (g : DependencyGraph T) (fuel : Nat) :
    ∀ (ns V c : List T), cycleSweep g fuel V ns = some c → IsCycleList g c := by
  intro ns
  induction ns with
  | nil =>
    intro V c heq
    simp [cycleSweep] at heq
  | cons n ns ihn =>
    intro V c heq
    rw [show cycleSweep g fuel V (n :: ns) =
        if n ∈ V then cycleSweep g fuel V ns
        else match findCycle g fuel V [] n with
          | (_, some c) => some c
          | (v', none) => cycleSweep g fuel v' ns from rfl] at heq
    by_cases hn : n ∈ V
    · rw [if_pos hn] at heq
      exact ihn V c heq
    · rw [if_neg hn] at heq
      rcases hfc : findCycle g fuel V [] n with ⟨v₁, oc⟩
      rw [hfc] at heq
      cases oc with
      | some c' =>
        simp only [Option.some.injEq] at heq
        have hchain : List.Chain' (Edge g) ([] ++ [n]) := List.chain'_singleton n
        exact heq ▸ findCycle_some_spec g fuel V [] n v₁ c' hchain hfc
      | none =>
        simp only [] at heq
        exact ihn v₁ c heq

/-- If the sweep over all nodes finds nothing, every node is certified
cycle-free. -/
theorem cycleSweep_none_spec (g : DependencyGraph T) (hWF : WF g) :
    ∀ (ns V : List T), V.Nodup → (∀ x ∈ V, x ∈ g.nodes) →
      (∀ x ∈ ns, x ∈ g.nodes) → DfsInv g V [] →
      cycleSweep g (g.nodes.length + 1) V ns = none →
      ∃ V', (∀ x ∈ V, x ∈ V') ∧ (∀ x ∈ ns, x ∈ V') ∧ DfsInv g V' [] := by
  intro ns
  induction ns with
  | nil =>
    intro V hnd hsub hns hinv heq
    exact ⟨V, fun _ h => h, by simp, hinv⟩
  | cons n ns ihn =>
    intro V hnd hsub hns hinv heq
    rw [show cycleSweep g (g.nodes.length + 1) V (n :: ns) =
        if n ∈ V then cycleSweep g (g.nodes.length + 1) V ns
        else match findCycle g (g.nodes.length + 1) V [] n with
          | (_, some c) => some c
          | (v', none) => cycleSweep g (g.nodes.length + 1) v' ns from rfl] at heq
    by_cases hn : n ∈ V
    · rw [if_pos hn] at heq
      obtain ⟨V', h1, h2, h3⟩ :=
        ihn V hnd hsub (fun x hx => hns x (List.mem_cons_of_mem _ hx)) hinv heq
      refine ⟨V', h1, ?_, h3⟩
      intro x hx
      rcases List.mem_cons.mp hx with h | h
      · exact h ▸ h1 n hn
      · exact h2 x h
    · rw [if_neg hn] at heq
      rcases hfc : findCycle g (g.nodes.length + 1) V [] n with ⟨v₁, oc⟩
      rw [hfc] at heq
      cases oc with
      | some c => simp at heq
      | none =>
        simp only [] at heq
        obtain ⟨hsub1, hn1, hnd1, hsubn1, -, -, hinv1⟩ :=
          findCycle_none_spec g hWF (g.nodes.length + 1) V [] n v₁
            (by omega) hnd hsub (hns n (List.mem_cons_self n ns)) hinv hfc
        obtain ⟨V', h1, h2, h3⟩ :=
          ihn v₁ hnd1 hsubn1 (fun x hx => hns x (List.mem_cons_of_mem _ hx)) hinv1 heq
        refine ⟨V', fun x hx => h1 x (hsub1 hx), ?_, h3⟩
        intro x hx
        rcases List.mem_cons.mp hx with h | h
        · exact h ▸ h1 n hn1
        · exact h2 x h

/-- On a graph with a cycle the sweep always reports one. -/
theorem cycleSweep_finds (g : DependencyGraph T) (hWF : WF g)
    (hcyc : ∃ a, Relation.TransGen (Edge g) a a) :
    ∃ c, cycleSweep g (g.nodes.length + 1) [] g.nodes = some c := by
  rcases hsw : cycleSweep g (g.nodes.length + 1) [] g.nodes with - | c
  · exfalso
    obtain ⟨V', -, hnodes, hinv⟩ :=
      cycleSweep_none_spec g hWF g.nodes [] List.nodup_nil (by simp)
        (fun _ h => h) (by intro v hv; simp at hv) hsw
    obtain ⟨a, ha⟩ := hcyc
    obtain ⟨b, hab, -⟩ := Relation.TransGen.head'_iff.mp ha
    have hanode : a ∈ g.nodes := hWF.srcMem (a, b) hab
    exact (hinv a (hnodes a hanode) (by simp)).2 ha
  · exact ⟨c, rfl⟩

theorem topological_sort_def (g : DependencyGraph T) :
    topological_sort g =
      if (kahnResult g).length = g.nodes.length then .ok (kahnResult g)
      else
        match cycleSweep g (g.nodes.length + 1) [] g.nodes with
        | some c => .error c
        | none => .error (g.nodes.filter (fun n => decide (n ∉ kahnResult g))) := rfl

/-- The Kahn phase starting from the seeded queue: its output begins with
the seeds, is a duplicate-free list of nodes respecting every edge into
it, and every node left out keeps an incoming edge from a left-out node. -/
theorem kahn_main (g : DependencyGraph T) (hWF : WF g) :
    seeds g <+: kahnResult g ∧ (kahnResult g).Nodup ∧
      (∀ x ∈ kahnResult g, x ∈ g.nodes) ∧
      (∀ a b, Edge g a b → b ∈ kahnResult g → a ∈ kahnResult g ∧
        List.indexOf a (kahnResult g) < List.indexOf b (kahnResult g)) ∧
      (∀ n ∈ g.nodes, n ∉ kahnResult g →
        ∃ u, u ∈ g.nodes ∧ u ∉ kahnResult g ∧ Edge g u n) := by
  have hseedmem : ∀ n, n ∈ seeds g ↔ n ∈ g.nodes ∧ inDegree g n = 0 := by
    intro n
    simp [seeds, List.mem_filter]
  have hinv : KInv g (fun n => (inDegree g n : Int)) (seeds g) [] := by
    refine ⟨List.nodup_nil, hWF.nodup.filter _, by simp, by simp, ?_, ?_, ?_, by simp⟩
    · intro x hx
      exact ((hseedmem x).mp hx).1
    · intro n
      have h1 : remInto g [] n = edgesInto g n := by
        unfold remInto edgesInto
        apply countP_congr_mem
        intro e _
        simp
      rw [h1, inDegree_eq_edgesInto g hWF]
    · intro n hn
      rw [hseedmem n]
      constructor
      · rintro ⟨-, h⟩
        exact ⟨by simp, by simp [h]⟩
      · rintro ⟨-, h⟩
        refine ⟨hn, ?_⟩
        have : (inDegree g n : Int) = 0 := h
        omega
  obtain ⟨r, hr, hpre, hnd, hsub, htopo, hcomp⟩ :=
    kahnLoop_spec g hWF (g.nodes.length + 1) (fun n => (inDegree g n : Int))
      (seeds g) [] hinv (by omega)
  rw [show kahnResult g = r from hr]
  exact ⟨by simpa using hpre, hnd, hsub, htopo, hcomp⟩

/-- A nonempty node set in which every member has an in-neighbour in the
set contains a directed cycle (by pigeonhole on a backward walk). -/
theorem exists_cycle_of_stuck (g : DependencyGraph T) (S : Finset T)
    (hne : S.Nonempty) (h : ∀ n ∈ S, ∃ u, u ∈ S ∧ Edge g u n) :
    ∃ a, Relation.TransGen (Edge g) a a := by
  classical
  obtain ⟨x0, hx0⟩ := hne
  let F : {t // t ∈ S} → {t // t ∈ S} := fun t =>
    ⟨Classical.choose (h t.1 t.2), (Classical.choose_spec (h t.1 t.2)).1⟩
  have hF : ∀ t : {t // t ∈ S}, Edge g (F t).1 t.1 := fun t =>
    (Classical.choose_spec (h t.1 t.2)).2
  let seq : Nat → {t // t ∈ S} := fun k => F^[k] ⟨x0, hx0⟩
  have hseq : ∀ k, Edge g (seq (k + 1)).1 (seq k).1 := by
    intro k
    have hit : seq (k + 1) = F (seq k) := Function.iterate_succ_apply' F k _
    rw [hit]
    exact hF (seq k)
  have chain : ∀ d k, 1 ≤ d → Relation.TransGen (Edge g) (seq (k + d)).1 (seq k).1 := by
    intro d
    induction d with
    | zero => intro k hk; omega
    | succ d ihd =>
      intro k hk
      by_cases hd : d = 0
      · subst hd
        exact Relation.TransGen.single (hseq k)
      · have step : Edge g (seq (k + d + 1)).1 (seq (k + d)).1 := hseq (k + d)
        have : Relation.TransGen (Edge g) (seq (k + d)).1 (seq k).1 :=
          ihd k (by omega)
        exact Relation.TransGen.head step this
  have hcard : Fintype.card {t // t ∈ S} < Fintype.card (Fin (S.card + 1)) := by
    simp [Fintype.card_coe]
  obtain ⟨i, j, hij, hEq⟩ :=
    Fintype.exists_ne_map_eq_of_card_lt (fun i : Fin (S.card + 1) => seq i.1) hcard
  have hijv : (i : ℕ) ≠ (j : ℕ) := Fin.val_ne_of_ne hij
  rcases Nat.lt_or_ge (i : ℕ) (j : ℕ) with hlt | hge
  · refine ⟨(seq (i : ℕ)).1, ?_⟩
    have := chain ((j : ℕ) - (i : ℕ)) (i : ℕ) (by omega)
    rw [show (i : ℕ) + ((j : ℕ) - (i : ℕ)) = (j : ℕ) by omega] at this
    rw [show seq (j : ℕ) = seq (i : ℕ) from hEq.symm] at this
    exact this
  · have hlt : (j : ℕ) < (i : ℕ) := by omega
    refine ⟨(seq (j : ℕ)).1, ?_⟩
    have := chain ((i : ℕ) - (j : ℕ)) (j : ℕ) (by omega)
    rw [show (j : ℕ) + ((i : ℕ) - (j : ℕ)) = (i : ℕ) by omega] at this
    rw [show seq (i : ℕ) = seq (j : ℕ) from hEq] at this
    exact this

/-- A list ordering in which every edge goes forward excludes cycles. -/
theorem acyclic_of_order (g : DependencyGraph T) (r : List T)
    (h : ∀ a b, Edge g a b → List.indexOf a r < List.indexOf b r) : Acyclic g := by
  intro a ha
  have mono : ∀ x y, Relation.TransGen (Edge g) x y →
      List.indexOf x r < List.indexOf y r := by
    intro x y hxy
    induction hxy with
    | single h1 => exact h _ _ h1
    | tail h1 h2 ih => exact lt_trans ih (h _ _ h2)
  exact lt_irrefl _ (mono a a ha)

/-- On an acyclic graph the Kahn phase emits every node. -/
theorem kahnResult_complete (g : DependencyGraph T) (hWF : WF g)
    (hacyc : Acyclic g) : ∀ x ∈ g.nodes, x ∈ kahnResult g := by
  obtain ⟨-, -, -, -, hcomp⟩ := kahn_main g hWF
  by_contra hmiss
  push_neg at hmiss
  obtain ⟨n0, hn0, hn0r⟩ := hmiss
  set S : Finset T := (g.nodes.filter (fun n => decide (n ∉ kahnResult g))).toFinset
    with hS
  have hmemS : ∀ n, n ∈ S ↔ n ∈ g.nodes ∧ n ∉ kahnResult g := by
    intro n
    simp [hS, List.mem_toFinset, List.mem_filter]
  have hne : S.Nonempty := ⟨n0, (hmemS n0).mpr ⟨hn0, hn0r⟩⟩
  have hstuck : ∀ n ∈ S, ∃ u, u ∈ S ∧ Edge g u n := by
    intro n hn
    obtain ⟨hn1, hn2⟩ := (hmemS n).mp hn
    obtain ⟨u, hu1, hu2, hu3⟩ := hcomp n hn1 hn2
    exact ⟨u, (hmemS u).mpr ⟨hu1, hu2⟩, hu3⟩
  obtain ⟨a, ha⟩ := exists_cycle_of_stuck g S hne hstuck
  exact hacyc a ha

/-- On a well-formed acyclic graph, `topological_sort` succeeds with a
permutation of the node set in which every edge goes forward. -/
theorem topological_sort_ok (g : DependencyGraph T) (hWF : WF g)
    (hacyc : Acyclic g) :
    topological_sort g = .ok (kahnResult g) ∧ (kahnResult g).Perm g.nodes ∧
      ∀ a b, Edge g a b →
        List.indexOf a (kahnResult g) < List.indexOf b (kahnResult g) := by
  obtain ⟨-, hnd, hsub, htopo, -⟩ := kahn_main g hWF
  have hfull := kahnResult_complete g hWF hacyc
  have hperm : (kahnResult g).Perm g.nodes :=
    perm_of_nodup_mem_iff hnd hWF.nodup (fun x => ⟨fun h => hsub x h, fun h => hfull x h⟩)
  have hlen : (kahnResult g).length = g.nodes.length := hperm.length_eq
  refine ⟨?_, hperm, ?_⟩
  · rw [topological_sort_def, if_pos hlen]
  · intro a b hab
    exact (htopo a b hab (hfull b (hWF.tgtMem (a, b) hab))).2

/-- On a well-formed graph containing a cycle, `topological_sort` fails
and its payload is a genuine cycle of the graph. -/
theorem topological_sort_cycle (g : DependencyGraph T) (hWF : WF g)
    (hcyc : ∃ a, Relation.TransGen (Edge g) a a) :
    ∃ c, topological_sort g = .error c ∧ IsCycleList g c := by
  obtain ⟨-, hnd, hsub, htopo, -⟩ := kahn_main g hWF
  have hlen : (kahnResult g).length ≠ g.nodes.length := by
    intro hlen
    have hperm : (kahnResult g).Perm g.nodes :=
      (hnd.subperm (fun _ hx => hsub _ hx)).perm_of_length_le (le_of_eq hlen.symm)
    have hfull : ∀ x ∈ g.nodes, x ∈ kahnResult g := fun x hx => hperm.mem_iff.mpr hx
    have : Acyclic g := by
      apply acyclic_of_order g (kahnResult g)
      intro a b hab
      exact (htopo a b hab (hfull b (hWF.tgtMem (a, b) hab))).2
    obtain ⟨a, ha⟩ := hcyc
    exact this a ha
  obtain ⟨c, hc⟩ := cycleSweep_finds g hWF hcyc
  refine ⟨c, ?_, cycleSweep_some_spec g (g.nodes.length + 1) g.nodes [] c hc⟩
  rw [topological_sort_def, if_neg hlen, hc]

theorem setInsert_spec {n : T} {l l' : List T} (h : SetInsert n l l') (hnd : l.Nodup) :
    l'.Nodup ∧ ∀ x, (x ∈ l' ↔ x = n ∨ x ∈ l) := by
  cases h with
  | mem hmem =>
    refine ⟨hnd, fun x => ⟨Or.inr, ?_⟩⟩
    rintro (rfl | hx)
    · exact hmem
    · exact hx
  | new hn hp =>
    refine ⟨hp.nodup_iff.mpr (List.nodup_cons.mpr ⟨hn, hnd⟩), fun x => ?_⟩
    rw [hp.mem_iff, List.mem_cons]

theorem buildFrom_WF {g : DependencyGraph T} {ops : List (Op T)}
    {g' : DependencyGraph T} (h : BuildFrom g ops g') (hWF : WF g) : WF g' := by
  induction h with
  | nil => exact hWF
  | cons hstep _ ih =>
    apply ih
    cases hstep with
    | addNode hins =>
      obtain ⟨hnd, hmem⟩ := setInsert_spec hins hWF.nodup
      exact ⟨hnd, fun e he => (hmem e.1).mpr (Or.inr (hWF.srcMem e he)),
        fun e he => (hmem e.2).mpr (Or.inr (hWF.tgtMem e he))⟩
    | addEdge hins1 hins2 =>
      obtain ⟨hnd1, hmem1⟩ := setInsert_spec hins1 hWF.nodup
      obtain ⟨hnd2, hmem2⟩ := setInsert_spec hins2 hnd1
      refine ⟨hnd2, ?_, ?_⟩
      · intro e he
        rcases List.mem_append.mp he with h | h
        · exact (hmem2 e.1).mpr (Or.inr ((hmem1 e.1).mpr (Or.inr (hWF.srcMem e h))))
        · simp only [List.mem_singleton] at h
          subst h
          exact (hmem2 _).mpr (Or.inr ((hmem1 _).mpr (Or.inl rfl)))
      · intro e he
        rcases List.mem_append.mp he with h | h
        · exact (hmem2 e.2).mpr (Or.inr ((hmem1 e.2).mpr (Or.inr (hWF.tgtMem e h))))
        · simp only [List.mem_singleton] at h
          subst h
          exact (hmem2 _).mpr (Or.inl rfl)

theorem emptyGraph_WF : WF (emptyGraph : DependencyGraph T) :=
  ⟨List.nodup_nil, fun e he => absurd he (List.not_mem_nil e),
    fun e he => absurd he (List.not_mem_nil e)⟩

theorem built_WF {ops : List (Op T)} {g : DependencyGraph T} (h : Built ops g) :
    WF g := buildFrom_WF h emptyGraph_WF

/-- Multiplicity of the pair `(a, b)` in an edge list, expressed without
reference to a `BEq` instance on pairs. -/
def countPair (E : List (T × T)) (a b : T) : Nat :=
  E.countP (fun e => decide (e.1 = a ∧ e.2 = b))

theorem count_eq_countPair (E : List (T × T)) (a b : T) :
    @List.count (T × T) instBEqOfDecidableEq (a, b) E = countPair E a b := by
  rw [@List.count_eq_countP _ instBEqOfDecidableEq]
  apply countP_congr_mem
  intro e _
  show decide (e = (a, b)) = decide (e.1 = a ∧ e.2 = b)
  by_cases h : e = (a, b)
  · subst h
    simp
  · have h' : ¬(e.1 = a ∧ e.2 = b) := by
      intro hh
      rcases e with ⟨x, y⟩
      exact h (by simp only [Prod.mk.injEq]; exact ⟨hh.1, hh.2⟩)
    simp [h, h']

theorem countPair_edges (g : DependencyGraph T) (a b : T) :
    countPair g.edges a b = edgesFromTo g a b := rfl

theorem countPair_map_mk (l : List T) (n a b : T) :
    countPair (l.map (fun t => (t, n))) a b =
      if b = n then l.count a else 0 := by
  unfold countPair
  rw [List.countP_map]
  by_cases hb : b = n
  · subst hb
    rw [if_pos rfl, List.count_eq_countP]
    apply countP_congr_mem
    intro t _
    by_cases ht : t = a <;> simp [ht, Function.comp]
  · rw [if_neg hb]
    apply List.countP_eq_zero.mpr
    intro t _
    simp only [Function.comp, decide_eq_true_eq, not_and]
    exact fun _ h => hb h.symm

theorem countPair_map_swap (E : List (T × T)) (a b : T) :
    countPair (E.map Prod.swap) a b = countPair E b a := by
  unfold countPair
  rw [List.countP_map]
  apply countP_congr_mem
  intro e _
  rcases e with ⟨x, y⟩
  by_cases hx : x = b <;> by_cases hy : y = a <;> simp [Function.comp, hx, hy]

/-- The edge sequence built by `reversed()` is a permutation of the
flipped edge multiset. -/
theorem reversedGraph_edges_perm (g : DependencyGraph T) (hWF : WF g) :
    (reversedGraph g).edges.Perm (g.edges.map Prod.swap) := by
  rw [List.perm_iff_count]
  rintro ⟨a, b⟩
  rw [count_eq_countPair, count_eq_countPair, countPair_map_swap,
    countPair_edges g b a]
  show countPair (((g.nodes.map (fun n => (adjacency g n).map (fun t => (t, n))))).flatten) a b = _
  unfold countPair
  rw [List.countP_flatten, List.map_map]
  have hmap : ((List.countP fun e => decide (e.1 = a ∧ e.2 = b)) ∘
      fun n => (adjacency g n).map (fun t => (t, n))) =
      fun n => if b = n then (fun m => (adjacency g m).count a) n else 0 := by
    funext n
    exact countPair_map_mk (adjacency g n) n a b
  rw [hmap, sum_map_ite g.nodes b (fun m => (adjacency g m).count a) hWF.nodup]
  by_cases hb : b ∈ g.nodes
  · rw [if_pos hb, count_adjacency g b a]
  · rw [if_neg hb]
    symm
    unfold edgesFromTo
    apply List.countP_eq_zero.mpr
    intro e he
    simp only [decide_eq_true_eq, not_and]
    intro h1
    exact absurd (h1 ▸ hWF.srcMem e he) hb

/-- `reversed()` (as embedded) realises the relational specification:
same node set, flipped edge multiset. -/
theorem reversedGraph_reversedOf (g : DependencyGraph T) (hWF : WF g) :
    ReversedOf g (reversedGraph g) :=
  ⟨List.Perm.refl _, reversedGraph_edges_perm g hWF⟩

theorem reversedOf_WF {g g' : DependencyGraph T} (hWF : WF g)
    (h : ReversedOf g g') : WF g' := by
  obtain ⟨hnodes, hedges⟩ := h
  refine ⟨hnodes.nodup_iff.mpr hWF.nodup, ?_, ?_⟩
  · intro e he
    obtain ⟨e₀, he₀, rfl⟩ := List.mem_map.mp (hedges.mem_iff.mp he)
    exact hnodes.mem_iff.mpr (hWF.tgtMem e₀ he₀)
  · intro e he
    obtain ⟨e₀, he₀, rfl⟩ := List.mem_map.mp (hedges.mem_iff.mp he)
    exact hnodes.mem_iff.mpr (hWF.srcMem e₀ he₀)

theorem edge_reversedOf {g g' : DependencyGraph T} (h : ReversedOf g g')
    {x y : T} : Edge g' x y ↔ Edge g y x := by
  obtain ⟨-, hedges⟩ := h
  unfold Edge
  rw [hedges.mem_iff]
  constructor
  · intro hm
    obtain ⟨e₀, he₀, heq⟩ := List.mem_map.mp hm
    rcases e₀ with ⟨u, v⟩
    simp only [Prod.swap_prod_mk, Prod.mk.injEq] at heq
    obtain ⟨rfl, rfl⟩ := heq
    exact he₀
  · intro hm
    exact List.mem_map.mpr ⟨(y, x), hm, rfl⟩

theorem acyclic_reversedOf {g g' : DependencyGraph T} (h : ReversedOf g g')
    (hacyc : Acyclic g) : Acyclic g' := by
  intro a ha
  have : Relation.TransGen (Function.swap (Edge g)) a a :=
    Relation.TransGen.mono (fun x y hxy => (edge_reversedOf h).mp hxy) ha
  exact hacyc a (Relation.transGen_swap.mp this)

/-- If every edge increases a numeric label, the graph is acyclic
(used to discharge acyclicity on concrete witnesses). -/
theorem acyclic_of_ltNat (g : DependencyGraph ℕ) (h : ∀ a b, Edge g a b → a < b) :
    Acyclic g := by
  intro a ha
  have mono : ∀ x y, Relation.TransGen (Edge g) x y → x < y := by
    intro x y hxy
    induction hxy with
    | single h1 => exact h _ _ h1
    | tail _ h2 ih => exact lt_trans ih (h _ _ h2)
  exact lt_irrefl a (mono a a ha)

/-- C1: for every graph built by a sequence of add_node/add_edge calls
that leaves it acyclic, `topological_sort` returns a permutation of the
node set in which every edge `a → b` has `a` strictly before `b`;
`reversed()` yields a graph with the same node set and every edge
flipped, and sorting any such reversed graph yields a valid
reverse-topological (teardown) order of the original graph. -/
theorem C1_sort_correct_and_reversed (ops : List (Op T)) (g : DependencyGraph T)
    (hb : Built ops g) (hacyc : Acyclic g) :
    (∃ r, topological_sort g = .ok r ∧ r.Perm g.nodes ∧
      ∀ a b, Edge g a b → List.indexOf a r < List.indexOf b r) ∧
    ReversedOf g (reversedGraph g) ∧
    (∀ g', ReversedOf g g' → ∃ r', topological_sort g' = .ok r' ∧
      r'.Perm g.nodes ∧
      ∀ a b, Edge g a b → List.indexOf b r' < List.indexOf a r') := by
  have hWF := built_WF hb
  refine ⟨?_, reversedGraph_reversedOf g hWF, ?_⟩
  · obtain ⟨h1, h2, h3⟩ := topological_sort_ok g hWF hacyc
    exact ⟨kahnResult g, h1, h2, h3⟩
  · intro g' hrev
    have hWF' := reversedOf_WF hWF hrev
    have hacyc' := acyclic_reversedOf hrev hacyc
    obtain ⟨h1, h2, h3⟩ := topological_sort_ok g' hWF' hacyc'
    refine ⟨kahnResult g', h1, h2.trans hrev.1, ?_⟩
    intro a b hab
    exact h3 b a ((edge_reversedOf hrev).mpr hab)

/-- Witness for C1 on the two-node graph built by `add_edge(0, 1)`. -/
theorem C1_witness :
    (∃ r, topological_sort (⟨[0, 1], [(0, 1)]⟩ : DependencyGraph ℕ) = .ok r ∧
      r.Perm [0, 1] ∧ ∀ a b, Edge (⟨[0, 1], [(0, 1)]⟩ : DependencyGraph ℕ) a b →
        List.indexOf a r < List.indexOf b r) ∧
    ReversedOf (⟨[0, 1], [(0, 1)]⟩ : DependencyGraph ℕ)
      (reversedGraph (⟨[0, 1], [(0, 1)]⟩ : DependencyGraph ℕ)) ∧
    (∀ g', ReversedOf (⟨[0, 1], [(0, 1)]⟩ : DependencyGraph ℕ) g' →
      ∃ r', topological_sort g' = .ok r' ∧ r'.Perm [0, 1] ∧
        ∀ a b, Edge (⟨[0, 1], [(0, 1)]⟩ : DependencyGraph ℕ) a b →
          List.indexOf b r' < List.indexOf a r') :=
  C1_sort_correct_and_reversed [Op.addEdge 0 1] ⟨[0, 1], [(0, 1)]⟩
    (BuildFrom.cons
      (Step.addEdge (SetInsert.new (by decide) (List.Perm.refl [0]))
        (SetInsert.new (by decide) (List.Perm.swap 1 0 [])))
      BuildFrom.nil)
    (acyclic_of_ltNat _ (by
      intro a b hab
      simp only [Edge, List.mem_singleton, Prod.mk.injEq] at hab
      omega))

/-- C2 counterexample: inserting node 0 then node 1 (no edges) may leave
the set with iteration order `[1, 0]`, and `topological_sort` then
returns `[1, 0]`, not the insertion order `[0, 1]`. -/
theorem C2_counterexample :
    Built [Op.addNode 0, Op.addNode 1] (⟨[1, 0], []⟩ : DependencyGraph ℕ) ∧
    topological_sort (⟨[1, 0], []⟩ : DependencyGraph ℕ) = .ok [1, 0] ∧
    [1, 0] ≠ [0, 1] := by
  refine ⟨?_, by rfl, by decide⟩
  exact BuildFrom.cons (Step.addNode (SetInsert.new (by decide) (List.Perm.refl [0])))
    (BuildFrom.cons (Step.addNode (SetInsert.new (by decide) (List.Perm.refl [1, 0])))
      BuildFrom.nil)

/-- C2 amended: the tie-break among simultaneously ready nodes is the
node set's iteration order (an unspecified enumeration, not insertion
order): whenever `topological_sort` succeeds, its output starts with
exactly the initially ready nodes (`seeds`), in set-iteration order. -/
theorem C2_ready_prefix (g : DependencyGraph T) (hWF : WF g) :
    ∀ r, topological_sort g = .ok r → seeds g <+: r := by
  intro r hr
  rw [topological_sort_def] at hr
  by_cases hlen : (kahnResult g).length = g.nodes.length
  · rw [if_pos hlen] at hr
    injection hr with hr
    exact hr ▸ (kahn_main g hWF).1
  · rw [if_neg hlen] at hr
    rcases hsw : cycleSweep g (g.nodes.length + 1) [] g.nodes with - | c <;>
      rw [hsw] at hr <;> simp at hr

/-- Witness for C2 amended: set-iteration order `[2, 0, 1]` with edge
`0 → 1`; the ready nodes `[2, 0]` open the output. -/
theorem C2_ready_prefix_witness :
    seeds (⟨[2, 0, 1], [(0, 1)]⟩ : DependencyGraph ℕ) <+: [2, 0, 1] :=
  C2_ready_prefix (⟨[2, 0, 1], [(0, 1)]⟩ : DependencyGraph ℕ)
    ⟨by decide, by decide, by decide⟩ [2, 0, 1] (by rfl)

/-- C3: on every well-formed graph containing a cycle,
`topological_sort` fails and the error payload is an ordered node
sequence starting and ending at the same node whose consecutive pairs
are all edges of the graph. -/
theorem C3_cycle_error (g : DependencyGraph T) (hWF : WF g)
    (hcyc : ∃ a, Relation.TransGen (Edge g) a a) :
    ∃ c, topological_sort g = .error c ∧ IsCycleList g c :=
  topological_sort_cycle g hWF hcyc

/-- Witness for C3 on the two-cycle `0 → 1 → 0`. -/
theorem C3_witness :
    ∃ c, topological_sort (⟨[0, 1], [(0, 1), (1, 0)]⟩ : DependencyGraph ℕ) =
      .error c ∧ IsCycleList (⟨[0, 1], [(0, 1), (1, 0)]⟩ : DependencyGraph ℕ) c :=
  C3_cycle_error (⟨[0, 1], [(0, 1), (1, 0)]⟩ : DependencyGraph ℕ)
    ⟨by decide, by decide, by decide⟩
    ⟨0, Relation.TransGen.tail
      (Relation.TransGen.single
        (show Edge (⟨[0, 1], [(0, 1), (1, 0)]⟩ : DependencyGraph ℕ) 0 1 by decide))
      (show Edge (⟨[0, 1], [(0, 1), (1, 0)]⟩ : DependencyGraph ℕ) 1 0 by decide)⟩

/-- C10: duplicate edges do not break sorting: each duplicate raises the
in-degree by one (the dict counts edge occurrences) and is matched by one
decrement, so any well-formed graph that is acyclic after coalescing
duplicates still sorts into a permutation respecting every edge. -/
theorem C10_duplicate_edges (g : DependencyGraph T) (hWF : WF g)
    (hacyc : Acyclic g) :
    (∀ n, inDegree g n = edgesInto g n) ∧
    ∃ r, topological_sort g = .ok r ∧ r.Perm g.nodes ∧
      ∀ a b, Edge g a b → List.indexOf a r < List.indexOf b r := by
  obtain ⟨h1, h2, h3⟩ := topological_sort_ok g hWF hacyc
  exact ⟨inDegree_eq_edgesInto g hWF, kahnResult g, h1, h2, h3⟩

/-- Witness for C10 on the graph with the edge `0 → 1` added twice. -/
theorem C10_witness :
    (∀ n, inDegree (⟨[0, 1], [(0, 1), (0, 1)]⟩ : DependencyGraph ℕ) n =
      edgesInto (⟨[0, 1], [(0, 1), (0, 1)]⟩ : DependencyGraph ℕ) n) ∧
    ∃ r, topological_sort (⟨[0, 1], [(0, 1), (0, 1)]⟩ : DependencyGraph ℕ) = .ok r ∧
      r.Perm [0, 1] ∧
      ∀ a b, Edge (⟨[0, 1], [(0, 1), (0, 1)]⟩ : DependencyGraph ℕ) a b →
        List.indexOf a r < List.indexOf b r :=
  C10_duplicate_edges (⟨[0, 1], [(0, 1), (0, 1)]⟩ : DependencyGraph ℕ)
    ⟨by decide, by decide, by decide⟩
    (acyclic_of_ltNat _ (by
      intro a b hab
      simp only [Edge, List.mem_cons, List.mem_singleton, Prod.mk.injEq] at hab
      rcases hab with ⟨rfl, rfl⟩ | hab
      · omega
      · simp at hab
        omega))

section CollectApps

variable {A : Type} [DecidableEq A]

/-- The `mode_order` dict of `Framework._collect_apps` (framework.py):
production ↦ [production], staging ↦ [staging, production],
development ↦ [development, staging, production]; `.get(app_mode, [])`
for anything else. -/
def mode_order (app_mode : String) : List String :=
  if app_mode = "production" then ["production"]
  else if app_mode = "staging" then ["staging", "production"]
  else if app_mode = "development" then ["development", "staging", "production"]
  else []

/-- One `for app in …: if app not in seen: seen.add(app);
installed_apps.append(app)` loop of `_collect_apps`, threading
`(seen, installed_apps)`. -/
def addApps (seen installed : List A) : List A → List A × List A
  | [] => (seen, installed)
  | a :: rest =>
    if a ∈ seen then addApps seen installed rest
    else addApps (a :: seen) (installed ++ [a]) rest

/-- `Framework._collect_apps(app_mode, the_apps, py_apps)`: the explicit
settings list first, then the apps of each mode in `mode_order` order,
skipping apps already seen.  `the_apps` is the apps-by-mode dict with
`.get(mode, [])` semantics. -/
def collect_apps (app_mode : String) (the_apps : String → List A)
    (py_apps : List A) : List A :=
  let st := addApps [] [] py_apps
  ((mode_order app_mode).foldl (fun st mode => addApps st.1 st.2 (the_apps mode)) st).2

/-- Deduplication keeping the first occurrence of each element, written
from the spec's words ("final list preserves first occurrence,
deduplicates by equality"). -/
def dedupKeepFirst : List A → List A
  | [] => []
  | a :: rest => a :: (dedupKeepFirst rest).filter (fun x => decide (x ≠ a))

/-- State of the `seen` set after one collection loop. -/
def seenAfter (seen : List A) : List A → List A
  | [] => seen
  | a :: rest => if a ∈ seen then seenAfter seen rest else seenAfter (a :: seen) rest

/-- The elements appended by one collection loop started with `seen`. -/
def dedupSeen (seen : List A) : List A → List A
  | [] => []
  | a :: rest =>
    if a ∈ seen then dedupSeen seen rest else a :: dedupSeen (a :: seen) rest

theorem addApps_eq : ∀ (l seen installed : List A),
    addApps seen installed l = (seenAfter seen l, installed ++ dedupSeen seen l) := by
  intro l
  induction l with
  | nil => intro seen installed; simp [addApps, seenAfter, dedupSeen]
  | cons a rest ih =>
    intro seen installed
    by_cases h : a ∈ seen
    · simp only [addApps, seenAfter, dedupSeen, if_pos h]
      exact ih seen installed
    · simp only [addApps, seenAfter, dedupSeen, if_neg h]
      rw [ih (a :: seen) (installed ++ [a])]
      simp

theorem seenAfter_append : ∀ (xs ys seen : List A),
    seenAfter seen (xs ++ ys) = seenAfter (seenAfter seen xs) ys := by
  intro xs
  induction xs with
  | nil => intro ys seen; rfl
  | cons a xs ih =>
    intro ys seen
    by_cases h : a ∈ seen <;> simp only [List.cons_append, seenAfter, if_pos, if_neg, h,
      ite_true, ite_false] <;> exact ih ys _

theorem dedupSeen_append : ∀ (xs ys seen : List A),
    dedupSeen seen (xs ++ ys) = dedupSeen seen xs ++ dedupSeen (seenAfter seen xs) ys := by
  intro xs
  induction xs with
  | nil => intro ys seen; rfl
  | cons a xs ih =>
    intro ys seen
    by_cases h : a ∈ seen <;>
      simp only [List.cons_append, dedupSeen, seenAfter, h, ite_true, ite_false] <;>
      simp [ih ys _]

theorem dedupSeen_eq_filter : ∀ (l seen : List A),
    dedupSeen seen l = (dedupKeepFirst l).filter (fun x => decide (x ∉ seen)) := by
  intro l
  induction l with
  | nil => intro seen; rfl
  | cons a rest ih =>
    intro seen
    by_cases h : a ∈ seen
    · simp only [dedupSeen, dedupKeepFirst, if_pos h, List.filter_cons]
      rw [if_neg (by simp [h])]
      rw [ih seen, List.filter_filter]
      apply List.filter_congr
      intro x _
      by_cases hx : x = a
      · subst hx
        simp [h]
      · simp [hx]
    · simp only [dedupSeen, dedupKeepFirst, if_neg h, List.filter_cons]
      rw [if_pos (by simp [h])]
      rw [ih (a :: seen), List.filter_filter]
      congr 1
      apply List.filter_congr
      intro x _
      by_cases hx : x = a
      · subst hx
        simp
      · simp [hx, List.mem_cons]

/-- C5 amended: app-list expansion returns the explicit settings apps
first and then the mode-derived lists in `mode_order` order — staging
before production for staging mode, development before staging before
production for development mode (the reverse of the claimed order) —
deduplicated keeping the first occurrence of each app. -/
theorem C5_collect_apps_characterisation (app_mode : String)
    (the_apps : String → List A) (py_apps : List A) :
    collect_apps app_mode the_apps py_apps =
      dedupKeepFirst (py_apps ++ ((mode_order app_mode).map the_apps).flatten) := by
  have foldl_eq : ∀ (ms : List String) (s acc : List A),
      (ms.foldl (fun st mode => addApps st.1 st.2 (the_apps mode)) (s, acc)) =
        (seenAfter s ((ms.map the_apps).flatten),
          acc ++ dedupSeen s ((ms.map the_apps).flatten)) := by
    intro ms
    induction ms with
    | nil => intro s acc; simp [seenAfter, dedupSeen]
    | cons m ms ih =>
      intro s acc
      simp only [List.foldl_cons]
      rw [show addApps s acc (the_apps m) =
          (seenAfter s (the_apps m), acc ++ dedupSeen s (the_apps m)) from
        addApps_eq _ _ _]
      rw [ih]
      simp only [List.map_cons, List.flatten_cons]
      rw [seenAfter_append, dedupSeen_append, List.append_assoc]
  show ((mode_order app_mode).foldl
      (fun st mode => addApps st.1 st.2 (the_apps mode)) (addApps [] [] py_apps)).2 = _
  rw [addApps_eq]
  simp only [List.nil_append]
  rw [foldl_eq]
  show dedupSeen ([] : List A) py_apps ++
      dedupSeen (seenAfter [] py_apps) (((mode_order app_mode).map the_apps).flatten) = _
  rw [← dedupSeen_append, dedupSeen_eq_filter]
  simp

end CollectApps

/-- C5 counterexample: in staging mode with one production app `0` and
one staging app `1`, `_collect_apps` returns `[1, 0]` — staging before
production — not the claimed production-before-staging `[0, 1]`. -/
theorem C5_counterexample :
    collect_apps "staging"
      (fun m => if m = "production" then [0] else if m = "staging" then [1] else [])
      ([] : List ℕ) = [1, 0] ∧ ([1, 0] : List ℕ) ≠ [0, 1] :=
  ⟨rfl, by decide⟩

section Components

/-- Lookup in a Python dict represented as its assignment sequence
(metadata values are modelled as strings; only the "type" value, a kind
name, matters to these claims): the value of the LAST binding of the key
wins, matching both plain dicts (unique keys) and the Python dict-literal merge of a type marker with
the default metadata, where an explicit type key in the metadata
overrides the marker. -/
def pyLookup (d : List (String × String)) (k : String) : Option String :=
  ((d.filter (fun e => e.1 == k)).getLast?).map Prod.snd

/-- Python dict equality (`==`) on the representation: the two mappings
agree on every key of either dict. -/
def dictBeq (d1 d2 : List (String × String)) : Bool :=
  (d1.map Prod.fst ++ d2.map Prod.fst).all (fun k => pyLookup d1 k == pyLookup d2 k)

/-- `Components.register(type_name, obj)` (components.py): returns the
metadata dict — a type marker for the kind merged with the kind's
declared default metadata, the latter winning on key clashes — attached
to the object (its `__spoc__.metadata`; `config` plays no role in
`is_component`). `none` models the `KeyError` on an undeclared kind.
Kind names are modelled already lowercased, as `add_type`/`register`
lowercase them. -/
def register (registry : String → Option (List (String × String))) (k : String) :
    Option (List (String × String)) :=
  match registry k with
  | none => none
  | some m => some (("type", k) :: m)

/-- `Components.is_component(type_name, obj)`: `tag` is the metadata of
the object's `__spoc__` attribute (`none` when untagged, making the
`isinstance` test fail); the outer `none` models the `KeyError` on an
undeclared kind; the Bool is Python dict equality against the type marker of the queried
kind merged with that kind's declared default metadata. -/
def is_component (registry : String → Option (List (String × String))) (k : String)
    (tag : Option (List (String × String))) : Option Bool :=
  match registry k with
  | none => none
  | some m =>
    some (match tag with
      | none => false
      | some t => dictBeq t (("type", k) :: m))

theorem dictBeq_refl (d : List (String × String)) : dictBeq d d = true := by
  apply List.all_eq_true.mpr
  intro k _
  exact beq_self_eq_true _

theorem pyLookup_type_cons (m : List (String × String)) (x : String)
    (hm : pyLookup m "type" = none) :
    pyLookup (("type", x) :: m) "type" = some x := by
  unfold pyLookup at hm ⊢
  rw [Option.map_eq_none'] at hm
  rw [List.getLast?_eq_none_iff] at hm
  rw [List.filter_cons, if_pos (by simp), hm]
  rfl

/-- C6 counterexample: with declared kinds "a" (no default metadata) and
"b" (whose default metadata maps type to "a"), registering `x` as "a" makes
`is_component("b", x)` *true* although "b" ≠ "a": the default metadata
overrides the `type` marker and the two effective metadata dicts
coincide. -/
theorem C6_counterexample :
    register
      (fun s => if s = "a" then some ([] : List (String × String))
        else if s = "b" then some [("type", "a")] else none) "a" =
      some [("type", "a")] ∧
    is_component
      (fun s => if s = "a" then some ([] : List (String × String))
        else if s = "b" then some [("type", "a")] else none) "b"
      (some [("type", "a")]) = some true ∧
    ("b" : String) ≠ "a" :=
  ⟨rfl, rfl, by decide⟩

/-- C6 amended: the tagging round-trip holds provided no declared kind's
default metadata contains a "type" key (so the `type` marker cannot be
overridden): registering `x` as a declared kind `K` makes
`is_component(K, x)` true and `is_component(K', x)` false for every
other declared kind `K' ≠ K`. -/
theorem C6_register_roundtrip (registry : String → Option (List (String × String)))
    (hty : ∀ s m, registry s = some m → pyLookup m "type" = none)
    (k : String) (mk : List (String × String)) (hk : registry k = some mk) :
    is_component registry k (register registry k) = some true ∧
    ∀ k', k' ≠ k → ∀ mk', registry k' = some mk' →
      is_component registry k' (register registry k) = some false := by
  have hreg : register registry k = some (("type", k) :: mk) := by
    unfold register
    rw [hk]
  constructor
  · unfold is_component
    rw [hk, hreg]
    simp only [Option.some.injEq]
    exact dictBeq_refl _
  · intro k' hk' mk' hmk'
    unfold is_component
    rw [hmk', hreg]
    simp only [Option.some.injEq]
    have h1 : pyLookup (("type", k) :: mk) "type" = some k :=
      pyLookup_type_cons mk k (hty k mk hk)
    have h2 : pyLookup (("type", k') :: mk') "type" = some k' :=
      pyLookup_type_cons mk' k' (hty k' mk' hmk')
    apply Bool.eq_false_iff.mpr
    intro hall
    have := List.all_eq_true.mp hall "type"
      (List.mem_append.mpr (Or.inl (show "type" ∈ "type" :: mk.map Prod.fst from
        List.mem_cons_self _ _)))
    rw [h1, h2] at this
    have hkk : k = k' := by simpa using this
    exact hk' hkk.symm

/-- Witness for C6 amended on the catalogue declaring kinds "command"
and "model" with empty default metadata (spec scenario 5). -/
theorem C6_register_roundtrip_witness :
    is_component
      (fun s => if s = "command" then some ([] : List (String × String))
        else if s = "model" then some [] else none) "command"
      (register
        (fun s => if s = "command" then some ([] : List (String × String))
          else if s = "model" then some [] else none) "command") = some true ∧
    is_component
      (fun s => if s = "command" then some ([] : List (String × String))
        else if s = "model" then some [] else none) "model"
      (register
        (fun s => if s = "command" then some ([] : List (String × String))
          else if s = "model" then some [] else none) "command") = some false := by
  have hty : ∀ s m,
      (fun s => if s = "command" then some ([] : List (String × String))
        else if s = "model" then some [] else none) s = some m →
      pyLookup m "type" = none := by
    intro s m hm
    by_cases h1 : s = "command"
    · simp only [h1, if_pos rfl] at hm
      injection hm with hm
      rw [← hm]
      rfl
    · by_cases h2 : s = "model"
      · simp only [h1, h2, if_neg, if_pos rfl, ite_false] at hm
        injection hm with hm
        rw [← hm]
        rfl
      · simp [h1, h2] at hm
  obtain ⟨h1, h2⟩ := C6_register_roundtrip
    (fun s => if s = "command" then some ([] : List (String × String))
      else if s = "model" then some [] else none) hty "command" [] rfl
  exact ⟨h1, h2 "model" (by decide) [] rfl⟩

end Components

section LoadFromUri

variable {A : Type}

/-- Split a Python string (modelled as its character sequence) into its
'.'-separated segments; never empty (the empty string has one empty
segment), matching `str.split`/`str.rsplit` segment structure. -/
def segments : List Char → List (List Char)
  | [] => [[]]
  | c :: rest =>
    match segments rest with
    | [] => [[]]
    | s :: ss => if c = '.' then [] :: s :: ss else (c :: s) :: ss

/-- Rejoin segments with '.'; applied to all but the last segment it
yields exactly `uri.rsplit(".", 1)[0]`. -/
def joinDots : List (List Char) → List Char
  | [] => []
  | [s] => s
  | s :: ss => s ++ '.' :: joinDots ss

/-- The failure kinds of `load_from_uri` in the spec's error taxonomy. -/
inductive UriError where
  | malformedUri
  | symbolNotFound
  | appNotFound
deriving DecidableEq

/-- `Importer.load_from_uri(uri)` (core/importer.py).  `modules` is the
oracle of imports, giving each importable module path its attribute table;
`strict` is the importer mode.  `.error .malformedUri` models the
`ValueError("URI must be in the form 'package.module.function'")` raised
when `uri.rsplit(".", 1)` has fewer than two parts, `.error
.symbolNotFound` the `AttributeError("Module … has no attribute …")`,
and `.error .appNotFound` the `AppNotFoundError` escaping from
`self.load` in strict mode.  In loose mode a missing module makes `load`
return `None`, `hasattr(None, func_name)` is false, and the
`AttributeError` is raised. -/
def load_from_uri (modules : List Char → Option (List Char → Option A))
    (strict : Bool) (uri : List Char) : Except UriError A :=
  let segs := segments uri
  if segs.length < 2 then .error .malformedUri
  else
    match modules (joinDots segs.dropLast) with
    | none => if strict then .error .appNotFound else .error .symbolNotFound
    | some m =>
      match m (segs.getLastD []) with
      | none => .error .symbolNotFound
      | some v => .ok v

/-- C7: `load_from_uri` fails with `MalformedUri` exactly when the
dotted path has fewer than two segments; with at least two segments and
a loadable module, it fails with `SymbolNotFound` when the module lacks
the final segment's attribute and otherwise returns that attribute. -/
theorem C7_load_from_uri_spec (modules : List Char → Option (List Char → Option A))
    (strict : Bool) (uri : List Char) :
    ((segments uri).length < 2 →
      load_from_uri modules strict uri = .error .malformedUri) ∧
    (∀ m, 2 ≤ (segments uri).length →
      modules (joinDots (segments uri).dropLast) = some m →
      ((m ((segments uri).getLastD []) = none →
        load_from_uri modules strict uri = .error .symbolNotFound) ∧
       (∀ v, m ((segments uri).getLastD []) = some v →
        load_from_uri modules strict uri = .ok v))) := by
  constructor
  · intro h
    unfold load_from_uri
    rw [if_pos h]
  · intro m hlen hm
    constructor
    · intro hf
      unfold load_from_uri
      rw [if_neg (by omega), hm]
      have : (match m ((segments uri).getLastD []) with
          | none => (Except.error UriError.symbolNotFound : Except UriError A)
          | some v => Except.ok v) = Except.error UriError.symbolNotFound := by
        rw [hf]
      exact this
    · intro v hv
      unfold load_from_uri
      rw [if_neg (by omega), hm]
      have : (match m ((segments uri).getLastD []) with
          | none => (Except.error UriError.symbolNotFound : Except UriError A)
          | some w => Except.ok w) = Except.ok v := by
        rw [hv]
      exact this

/-- Witness for C7: with module "a" exporting only "b" ↦ 42, the URI
"ab" is malformed, "a.b" resolves to 42, and "a.c" is a missing
symbol. -/
theorem C7_witness :
    load_from_uri
      (fun p => if p = ['a'] then
        some (fun f => if f = ['b'] then some (42 : ℕ) else none) else none)
      true ['a', 'b'] = .error .malformedUri ∧
    load_from_uri
      (fun p => if p = ['a'] then
        some (fun f => if f = ['b'] then some (42 : ℕ) else none) else none)
      true ['a', '.', 'b'] = .ok 42 ∧
    load_from_uri
      (fun p => if p = ['a'] then
        some (fun f => if f = ['b'] then some (42 : ℕ) else none) else none)
      true ['a', '.', 'c'] = .error .symbolNotFound := by
  refine ⟨(C7_load_from_uri_spec _ true ['a', 'b']).1 (by decide), ?_, ?_⟩
  · exact ((C7_load_from_uri_spec _ true ['a', '.', 'b']).2
      (fun f => if f = ['b'] then some (42 : ℕ) else none) (by decide) (by rfl)).2
      42 (by rfl)
  · exact ((C7_load_from_uri_spec _ true ['a', '.', 'c']).2
      (fun f => if f = ['b'] then some (42 : ℕ) else none) (by decide) (by rfl)).1
      (by rfl)

end LoadFromUri

section Shutdown

variable {M : Type}

/-- Result of `Importer.shutdown()` (core/importer.py): either every
module of the teardown order was processed, or an exception from some
module's hook/teardown escaped the `for` loop and the `except` clause
re-raised it wrapped in `SpocError` (the base class — `LifecycleError`
is promised by the docstring but never raised).  `torn` records the
modules whose processing completed.  The trailing `self.on_shutdown()`
call is omitted: it runs only after every module was processed. -/
inductive ShutdownOutcome (M : Type) where
  | ok (torn : List M)
  | spocError (offender : M) (torn : List M)
deriving DecidableEq

/-- The `for module_name in module_order:` loop of `shutdown`:
`raises m = true` models the shutdown hook or teardown of `m` raising.
Returns the processed modules and the first offender, if any. -/
def shutdownSweep (raises : M → Bool) : List M → List M → List M × Option M
  | done, [] => (done, none)
  | done, m :: rest =>
    if raises m then (done, some m)
    else shutdownSweep raises (done ++ [m]) rest

/-- `Importer.shutdown()` over a given reverse-topological module order. -/
def shutdown (raises : M → Bool) (order : List M) : ShutdownOutcome M :=
  match shutdownSweep raises [] order with
  | (done, none) => .ok done
  | (done, some m) => .spocError m done

/-- C4 (code_bug evidence): `shutdown` stops at the FIRST module whose
teardown raises — the modules after it are never processed — and the
error surfaces wrapped as `SpocError`, not `LifecycleError`; no errors
are collected.  On the failing input `[m1, m2]` with `m1` raising, `m2`
is not torn down. -/
theorem C4_shutdown_aborts_on_first_error (raises : M → Bool) (order : List M) :
    shutdown raises order =
      match order.dropWhile (fun m => !(raises m)) with
      | [] => .ok order
      | m :: _ => .spocError m (order.takeWhile (fun m => !(raises m))) := by
  have sweep_eq : ∀ (l done : List M), shutdownSweep raises done l =
      match l.dropWhile (fun m => !(raises m)) with
      | [] => (done ++ l, none)
      | m :: _ => (done ++ l.takeWhile (fun m => !(raises m)), some m) := by
    intro l
    induction l with
    | nil => intro done; simp [shutdownSweep]
    | cons m rest ih =>
      intro done
      by_cases h : raises m
      · simp [shutdownSweep, List.dropWhile_cons, List.takeWhile_cons, h]
      · simp only [shutdownSweep, List.dropWhile_cons, List.takeWhile_cons, h,
          Bool.not_false, if_false, ite_true, ite_false, Bool.false_eq_true]
        rw [ih (done ++ [m])]
        rcases hdw : rest.dropWhile (fun m => !(raises m)) with - | ⟨m', rest'⟩ <;>
          simp
  unfold shutdown
  rw [sweep_eq order []]
  rcases hdw : order.dropWhile (fun m => !(raises m)) with - | ⟨m', rest'⟩ <;> simp

end Shutdown

section Worker

/-- Modelled from the spec: `AbstractWorker.run` of the worker module
that `tests/test_workers.py` imports (`AbstractWorker` with `main`,
`setup`, `teardown`, `lifecycle`, plus `ThreadWorker`/`ProcessWorker`),
which is missing from src/ — the `workers.py` present there is an older
draft without lifecycle events or teardown.  Spec §4.7: `run` emits
`startup`, invokes `setup` then `main`; a non-interrupt exception from
`main` is delivered to `lifecycle("error", exception=e)`;
KeyboardInterrupt is swallowed (a stop); the worker then always runs
`teardown` and emits `shutdown`; nothing is rethrown (the run returns
normally, producing only the event trace). -/
inductive WEvent (E : Type) where
  | startup
  | setupRun
  | error (e : E)
  | teardownRun
  | shutdown
deriving DecidableEq

/-- Modelled from the spec: how the user-supplied `main` body ends. -/
inductive MainOutcome (E : Type) where
  | ok
  | raises (e : E)
  | interrupted

/-- Modelled from the spec: the ordered trace of one worker run
(lifecycle events plus the `setup`/`teardown` invocations). -/
def workerRun {E : Type} (outcome : MainOutcome E) : List (WEvent E) :=
  [WEvent.startup, WEvent.setupRun] ++
    (match outcome with
     | .raises e => [WEvent.error e]
     | _ => []) ++
    [WEvent.teardownRun, WEvent.shutdown]

/-- C8: a worker whose `main` raises immediately delivers the lifecycle
events startup, then error carrying the exception, then shutdown, and
invokes `teardown` exactly once, before the shutdown event; the run
returns normally (the exception is not rethrown). -/
theorem C8_worker_error_lifecycle (e : ℕ) :
    workerRun (.raises e) =
      [WEvent.startup, WEvent.setupRun, WEvent.error e,
        WEvent.teardownRun, WEvent.shutdown] ∧
    (workerRun (.raises e)).count (WEvent.teardownRun) = 1 ∧
    (workerRun (.raises e)).indexOf (WEvent.teardownRun) <
      (workerRun (.raises e)).indexOf (WEvent.shutdown) := by
  refine ⟨rfl, ?_, ?_⟩ <;> simp [workerRun, List.count_cons, List.indexOf_cons]

end Worker

section Singleton

variable {C I A : Type} [DecidableEq C]

/-- `SingletonMeta.__call__` (core/singleton.py): `instances` is the
`_instances` dict keyed by class; when `cls` is absent the constructor
runs on the given arguments and the result is stored; the stored
instance is returned either way. -/
def singletonCall (ctor : A → I) (instances : List (C × I)) (cls : C) (args : A) :
    List (C × I) × I :=
  match instances.lookup cls with
  | some inst => (instances, inst)
  | none =>
    let inst := ctor args
    ((cls, inst) :: instances, inst)

/-- The attributes `Importer.__init__` stores (core/importer.py) that
the singleton claim observes. -/
structure ImporterState where
  on_startup_name : Option String
  on_shutdown_name : Option String
  mode : String
deriving DecidableEq

/-- `Importer.__init__(on_startup_name, on_shutdown_name, mode)`. -/
def importerInit (args : Option String × Option String × String) : ImporterState :=
  ⟨args.1, args.2.1, args.2.2⟩

/-- C9: once a class has an instance in `_instances`, every further
constructor call returns that same instance unchanged and leaves the
dict untouched — the arguments are ignored and the constructor body is
never run again. -/
theorem C9_singleton_returns_existing (ctor : A → I) (instances : List (C × I))
    (cls : C) (inst : I) (h : instances.lookup cls = some inst) :
    ∀ args, singletonCall ctor instances cls args = (instances, inst) := by
  intro args
  unfold singletonCall
  rw [h]

/-- Witness for C9: after `Importer()` created the strict-mode instance,
`Importer(mode="loose")` returns the original strict-mode instance and
changes nothing. -/
theorem C9_witness :
    singletonCall importerInit
      [(0, ImporterState.mk (some "initialize") (some "teardown") "strict")] 0
      (some "initialize", some "teardown", "loose") =
      ([(0, ImporterState.mk (some "initialize") (some "teardown") "strict")],
        ImporterState.mk (some "initialize") (some "teardown") "strict") ∧
    (ImporterState.mk (some "initialize") (some "teardown") "strict").mode =
      "strict" :=
  ⟨C9_singleton_returns_existing importerInit
      [(0, ImporterState.mk (some "initialize") (some "teardown") "strict")] 0
      (ImporterState.mk (some "initialize") (some "teardown") "strict") (by rfl)
      (some "initialize", some "teardown", "loose"),
    rfl⟩

end Singleton

end Spoc
